import Mathlib

/-!
Verification of the auracoil documentation tool core, shallowly embedded
from the TypeScript source. Documents are modelled as `List Char`
(JavaScript strings by code unit), fallible operations return `Except`,
and the file system is an explicit association list. Each claim of the
specification is stated and settled as a theorem below the definitions.
-/

set_option maxRecDepth 10000

deriving instance DecidableEq for Except

/-! ## Basic string utilities (JavaScript semantics on `List Char`) -/

/-- The JavaScript whitespace characters relevant to `String.trim` for the
ASCII documents handled here (space, tab, newline, carriage return,
vertical tab, form feed). -/
def isJSWhite (c : Char) : Bool :=
  c = ' ' || c = '\t' || c = '\n' || c = '\r' || c = '\x0b' || c = '\x0c'

/-- Drop leading whitespace, as the front half of `String.prototype.trim`. -/
def trimStart (s : List Char) : List Char :=
  s.dropWhile isJSWhite

/-- Drop trailing whitespace, as `String.prototype.trimEnd`. -/
def trimEndL (s : List Char) : List Char :=
  (s.reverse.dropWhile isJSWhite).reverse

/-- `String.prototype.trim`: drop whitespace from both ends. -/
def trimList (s : List Char) : List Char :=
  trimEndL (trimStart s)

/-- `String.prototype.indexOf(needle)` returning `none` for `-1`: the least
index at which `needle` occurs in `hay`. -/
def findSub (needle : List Char) : List Char → Option Nat
  | [] => if needle.isPrefixOf ([] : List Char) then some 0 else none
  | c :: t =>
    if needle.isPrefixOf (c :: t) then some 0 else (findSub needle t).map (· + 1)

/-- `String.prototype.includes`. -/
def hasSub (needle hay : List Char) : Bool :=
  (findSub needle hay).isSome

/-- Number of positions of `hay` at which `needle` occurs. -/
def countSub (needle : List Char) : List Char → Nat
  | [] => if needle.isPrefixOf ([] : List Char) then 1 else 0
  | c :: t => (if needle.isPrefixOf (c :: t) then 1 else 0) + countSub needle t

/-- `String.prototype.substring(a, b)`: clamps both indices to the string
length and swaps them when `a > b`, then slices. -/
def jsSubstring (s : List Char) (a b : Nat) : List Char :=
  let len := s.length
  let lo := min (min a b) len
  let hi := min (max a b) len
  (s.drop lo).take (hi - lo)

/-! ## Region parser (source: region module, `extractRegion` /
`replaceRegion` / `ensureRegion`) -/

def BEGIN_MARKER : List Char := "<!-- auracoil:begin -->".data

def END_MARKER : List Char := "<!-- auracoil:end -->".data

/-- The default region block appended by `ensureRegion`; the template
`BEGIN_MARKER\n...\nEND_MARKER` from the source. -/
def DEFAULT_REGION : List Char :=
  BEGIN_MARKER ++
    ("\n## GPT Insights (maintained by Auracoil)\n\n_No reviews yet. Run \x60/auracoil\x60 to get GPT 5.2 Pro\x27s analysis._\n").data
    ++ END_MARKER

/-- `extractRegion(doc)`: the trimmed text between the first occurrence of
each marker, or `none` (`null`) when either marker is absent. Mirrors
`doc.substring(beginIdx + BEGIN_MARKER.length, endIdx).trim()`. -/
def extractRegion (doc : List Char) : Option (List Char) :=
  match findSub BEGIN_MARKER doc, findSub END_MARKER doc with
  | some beginIdx, some endIdx =>
    some (trimList (jsSubstring doc (beginIdx + BEGIN_MARKER.length) endIdx))
  | _, _ => none

/-- `replaceRegion(doc, newContent)`: throws when either marker is absent,
otherwise returns `before + "\n" + newContent.trim() + "\n" + after` where
`before = doc.substring(0, beginIdx + BEGIN_MARKER.length)` and
`after = doc.substring(endIdx)`. -/
def replaceRegion (doc newContent : List Char) : Except String (List Char) :=
  match findSub BEGIN_MARKER doc, findSub END_MARKER doc with
  | some beginIdx, some endIdx =>
    .ok (jsSubstring doc 0 (beginIdx + BEGIN_MARKER.length) ++
      '\n' :: (trimList newContent ++
        '\n' :: jsSubstring doc endIdx doc.length))
  | _, _ => .error "Auracoil region markers not found in document"

/-- `ensureRegion(doc)`: returns `doc` unchanged when the BEGIN marker is
present, otherwise appends the default region after trimming trailing
whitespace, separated by a blank line:
`doc.trimEnd() + "\n\n" + DEFAULT_REGION + "\n"`. -/
def ensureRegion (doc : List Char) : List Char :=
  if hasSub BEGIN_MARKER doc then doc
  else trimEndL doc ++ '\n' :: '\n' :: (DEFAULT_REGION ++ ['\n'])

/-! ### Concrete documents used in witnesses and counterexamples -/

/-- A well-formed region document: `BEGIN`, an interior, `END`. -/
def sampleDoc : List Char := BEGIN_MARKER ++ "\nold\n".data ++ END_MARKER

/-- A malformed document whose END marker precedes its BEGIN marker, with a
blank interior between them. -/
def reversedDoc : List Char := END_MARKER ++ "\n\n".data ++ BEGIN_MARKER

/-- A malformed document whose END marker precedes its BEGIN marker. -/
def reversedDocX : List Char := END_MARKER ++ "x".data ++ BEGIN_MARKER

/-- A document containing the BEGIN marker twice. -/
def doubleBegin : List Char := BEGIN_MARKER ++ BEGIN_MARKER

/-! ## Secret scanner (source: `secret-scanner` module)

JavaScript strings appear as `String` for file paths and `List Char` for
scanned content. The file system handed to `scanForSecrets` is an
association list from relative path to readable content; a missing entry
models an unreadable file. -/

/-- `String.prototype.toLowerCase` (ASCII case mapping, which covers every
filename and pattern in the source). -/
def lowerS (s : String) : String := String.mk (s.data.map Char.toLower)

/-- `a.includes(b)` on `String`. -/
def strHasSub (pat s : String) : Bool := hasSub pat.data s.data

/-- `s.endsWith(pat)`. -/
def endsWithS (s pat : String) : Bool := pat.data.isSuffixOf s.data

/-- `s.startsWith(pat)`. -/
def startsWithS (s pat : String) : Bool := pat.data.isPrefixOf s.data

/-- Node `path.basename`: the part after the last slash (the paths scanned
here never end in a slash). -/
def basenameS (path : String) : String :=
  String.mk ((path.data.reverse.takeWhile (fun c => c != '/')).reverse)

inductive SecretType where
  | api_key
  | aws_credentials
  | private_key
  | password
  | token
  | connection_string
  | sensitive_file
deriving DecidableEq, Repr

structure SecretIssue where
  file : String
  line : Nat
  type : SecretType
  snippet : List Char
deriving DecidableEq, Repr

structure SecretScanResult where
  safe : Bool
  issues : List SecretIssue
deriving DecidableEq, Repr

/-- The `DANGEROUS_FILES` denylist (compared against the lower-cased
basename). -/
def DANGEROUS_FILES : List String :=
  [".env", ".env.local", ".env.production", ".env.development", ".npmrc",
   ".netrc", "credentials.json", "secrets.json", "config/secrets.yml",
   "id_rsa", "id_ed25519", ".pem", ".key", "service-account.json",
   "gcloud-credentials.json"]

/-- `isDangerousFile(filePath)`: exact denylist match on the lower-cased
basename, or one of the filename patterns. -/
def isDangerousFile (filePath : String) : Bool :=
  let fileName := lowerS (basenameS filePath)
  DANGEROUS_FILES.contains fileName ||
    startsWithS fileName ".env" ||
    endsWithS fileName ".pem" ||
    endsWithS fileName ".key" ||
    strHasSub "credentials" fileName ||
    strHasSub "secrets" fileName

/-! ### Pattern matcher

Each regular expression of `SECRET_PATTERNS` is a sequence of pieces:
literals, alternations of literals, and greedy counted repetitions of
one-character classes (every quantifier in the source patterns ranges over a
character class). `matchPieces` reproduces the JavaScript backtracking
order: alternatives left to right, quantifiers longest first. -/

inductive RePiece where
  /-- A literal string. -/
  | lit : List Char → RePiece
  /-- An alternation of literal strings, tried in order. -/
  | litAlt : List (List Char) → RePiece
  /-- An optional alternation of literals (`(?:a|b)?`), group first. -/
  | optLitAlt : List (List Char) → RePiece
  /-- `c{lo,hi}` over a character class, greedy; `none` means no upper
  bound. -/
  | cls : (Char → Bool) → Nat → Option Nat → RePiece
  /-- `c?` over a character class, greedy. -/
  | optCls : (Char → Bool) → RePiece

/-- Character comparison, case-insensitive when `ci` (the `i` flag). -/
def charMatch (ci : Bool) (a b : Char) : Bool :=
  if ci then a.toLower = b.toLower else a = b

/-- Literal match at the head of the input. -/
def litMatch (ci : Bool) : List Char → List Char → Bool
  | [], _ => true
  | _ :: _, [] => false
  | p :: ps, c :: cs => charMatch ci p c && litMatch ci ps cs

/-- Length of the maximal run of class characters at the head. -/
def runLen (p : Char → Bool) : List Char → Nat
  | [] => 0
  | c :: t => if p c then runLen p t + 1 else 0

/-- Match a piece sequence at the head of `s`, returning the number of
characters consumed by the first match in JavaScript backtracking order:
alternatives left to right, quantifiers longest first. The alternative loop
re-enters with the remaining alternatives and the greedy counted loop
re-enters with the upper bound lowered by one, so recursion is structural on
a fuel counter that bounds the depth of one backtracking path; callers pass
fuel exceeding that depth for every pattern of `SECRET_PATTERNS`, so the
fuel never runs out on them. -/
def matchPieces : Nat → Bool → List RePiece → List Char → Option Nat
  | 0, _, _, _ => none
  | _ + 1, _, [], _ => some 0
  | fuel + 1, ci, .lit w :: ps, s =>
    if litMatch ci w s then (matchPieces fuel ci ps (s.drop w.length)).map (· + w.length)
    else none
  | _ + 1, _, .litAlt [] :: _, _ => none
  | fuel + 1, ci, .litAlt (w :: ws) :: ps, s =>
    if litMatch ci w s then
      match matchPieces fuel ci ps (s.drop w.length) with
      | some m => some (w.length + m)
      | none => matchPieces fuel ci (.litAlt ws :: ps) s
    else matchPieces fuel ci (.litAlt ws :: ps) s
  | fuel + 1, ci, .optLitAlt ws :: ps, s =>
    match matchPieces fuel ci (.litAlt ws :: ps) s with
    | some n => some n
    | none => matchPieces fuel ci ps s
  | fuel + 1, ci, .optCls p :: ps, s =>
    match s with
    | c :: t =>
      if p c then
        match (matchPieces fuel ci ps t).map (· + 1) with
        | some n => some n
        | none => matchPieces fuel ci ps (c :: t)
      else matchPieces fuel ci ps (c :: t)
    | [] => matchPieces fuel ci ps []
  | fuel + 1, ci, .cls p lo mx :: ps, s =>
    let run := runLen p s
    let hi := match mx with
      | some m => min run m
      | none => run
    if hi < lo then none
    else
      match matchPieces fuel ci ps (s.drop hi) with
      | some m => some (hi + m)
      | none =>
        match hi with
        | 0 => none
        | h + 1 => matchPieces fuel ci (.cls p lo (some h) :: ps) s

/-- A secret pattern: case-insensitivity flag, piece sequence, issue type
(the unused `description` field of the source is dropped). -/
structure SecretPat where
  ci : Bool
  pieces : List RePiece
  type : SecretType

/-- Match a pattern at the head of `s`, with fuel covering the worst-case
backtracking depth: each of the at most `pieces.length` layers retries at
most `s.length + 1` counts or four alternatives before moving on. -/
def matchAt (pat : SecretPat) (s : List Char) : Option Nat :=
  matchPieces ((pat.pieces.length + 1) * (s.length + 8)) pat.ci pat.pieces s

/-- Leftmost match of the pattern in `s`: `(index, length)`. -/
def findFirstFrom (pat : SecretPat) : List Char → Option (Nat × Nat)
  | [] =>
    match matchAt pat [] with
    | some n => some (0, n)
    | none => none
  | c :: t =>
    match matchAt pat (c :: t) with
    | some n => some (0, n)
    | none => (findFirstFrom pat t).map (fun r => (r.1 + 1, r.2))

/-- The `while (pattern.exec(content))` loop with the `g` flag: collect
successive matches, resuming after each match end. Fuel `s.length + 1`
suffices because every pattern in `SECRET_PATTERNS` consumes at least one
character per match (on a zero-length match the source would loop forever;
the fuel model instead stops). -/
def execGo (pat : SecretPat) : Nat → List Char → Nat → List (Nat × Nat)
  | 0, _, _ => []
  | fuel + 1, s, base =>
    match findFirstFrom pat s with
    | none => []
    | some (i, n) => (base + i, n) :: execGo pat fuel (s.drop (i + max n 1)) (base + i + max n 1)

def execAll (pat : SecretPat) (s : List Char) : List (Nat × Nat) :=
  execGo pat (s.length + 1) s 0

/-! ### Character classes of the source patterns -/

/-- `\s` (the whitespace characters occurring in scanned ASCII content). -/
def clsWS (c : Char) : Bool := isJSWhite c

/-- `[:=]` -/
def clsColonEq (c : Char) : Bool := c = ':' || c = '='

/-- A quote character `['"]`. -/
def clsQuote (c : Char) : Bool := c = '\x27' || c = '"'

/-- `[a-zA-Z0-9]` -/
def clsAlnum (c : Char) : Bool :=
  ('a' ≤ c && c ≤ 'z') || ('A' ≤ c && c ≤ 'Z') || ('0' ≤ c && c ≤ '9')

/-- `[a-zA-Z0-9_\-]` -/
def clsApiKeyChar (c : Char) : Bool := clsAlnum c || c = '_' || c = '-'

/-- `[a-zA-Z0-9/+=]` -/
def clsB64 (c : Char) : Bool := clsAlnum c || c = '/' || c = '+' || c = '='

/-- `[^'"]` -/
def clsNotQuote (c : Char) : Bool := !clsQuote c

/-- `[a-zA-Z0-9_\-.]` -/
def clsTokenChar (c : Char) : Bool := clsApiKeyChar c || c = '.'

/-- `[0-9A-Z]` -/
def clsUpperDigit (c : Char) : Bool :=
  ('A' ≤ c && c ≤ 'Z') || ('0' ≤ c && c ≤ '9')

/-- `[0-9]` -/
def clsDigit (c : Char) : Bool := '0' ≤ c && c ≤ '9'

/-- `[a-zA-Z0-9-]` -/
def clsSlackTail (c : Char) : Bool := clsAlnum c || c = '-'

/-- `[baprs]` -/
def clsSlackKind (c : Char) : Bool :=
  c = 'b' || c = 'a' || c = 'p' || c = 'r' || c = 's'

/-- `[^\s'"]` -/
def clsNotWsQuote (c : Char) : Bool := !(isJSWhite c || clsQuote c)

/-- `[_-]` -/
def clsSep (c : Char) : Bool := c = '_' || c = '-'

/-- The secret-value alphabet of `maskSecret`: letters, digits, and the
characters underscore, dash, slash, dot, plus, equals. -/
def clsSecretValChar (c : Char) : Bool :=
  clsAlnum c || c = '_' || c = '-' || c = '/' || c = '.' || c = '+' || c = '='

/-- The `SECRET_PATTERNS` list transcribed pattern by pattern, in source
order. `(?:api[_-]?key|apikey)` is written as `api` `[_-]?` `key`: the
second alternative is the first with the separator absent, so the matched
extents coincide. -/
def SECRET_PATTERNS : List SecretPat :=
  [ -- /(?:api[_-]?key|apikey)\s*[:=]\s*['"]?([a-zA-Z0-9_\-]{20,})['"]?/gi
   { ci := true, type := .api_key, pieces :=
      [.lit "api".data, .optCls clsSep, .lit "key".data,
       .cls clsWS 0 none, .cls clsColonEq 1 (some 1), .cls clsWS 0 none,
       .optCls clsQuote, .cls clsApiKeyChar 20 none, .optCls clsQuote] },
   -- /AKIA[0-9A-Z]{16}/g
   { ci := false, type := .aws_credentials, pieces :=
      [.lit "AKIA".data, .cls clsUpperDigit 16 (some 16)] },
   -- /(?:aws_secret_access_key|aws_secret)\s*[:=]\s*['"]?([a-zA-Z0-9/+=]{40})['"]?/gi
   { ci := true, type := .aws_credentials, pieces :=
      [.litAlt ["aws_secret_access_key".data, "aws_secret".data],
       .cls clsWS 0 none, .cls clsColonEq 1 (some 1), .cls clsWS 0 none,
       .optCls clsQuote, .cls clsB64 40 (some 40), .optCls clsQuote] },
   -- /-----BEGIN (?:RSA |EC |DSA |OPENSSH )?PRIVATE KEY-----/g
   { ci := false, type := .private_key, pieces :=
      [.lit "-----BEGIN ".data,
       .optLitAlt ["RSA ".data, "EC ".data, "DSA ".data, "OPENSSH ".data],
       .lit "PRIVATE KEY-----".data] },
   -- /(?:password|passwd|pwd)\s*[:=]\s*['"]([^'"]{8,})['"]?/gi
   { ci := true, type := .password, pieces :=
      [.litAlt ["password".data, "passwd".data, "pwd".data],
       .cls clsWS 0 none, .cls clsColonEq 1 (some 1), .cls clsWS 0 none,
       .cls clsQuote 1 (some 1), .cls clsNotQuote 8 none, .optCls clsQuote] },
   -- /(?:token|bearer|auth)\s*[:=]\s*['"]?([a-zA-Z0-9_\-.]{20,})['"]?/gi
   { ci := true, type := .token, pieces :=
      [.litAlt ["token".data, "bearer".data, "auth".data],
       .cls clsWS 0 none, .cls clsColonEq 1 (some 1), .cls clsWS 0 none,
       .optCls clsQuote, .cls clsTokenChar 20 none, .optCls clsQuote] },
   -- /ghp_[a-zA-Z0-9]{36}/g
   { ci := false, type := .token, pieces :=
      [.lit "ghp_".data, .cls clsAlnum 36 (some 36)] },
   -- /gho_[a-zA-Z0-9]{36}/g
   { ci := false, type := .token, pieces :=
      [.lit "gho_".data, .cls clsAlnum 36 (some 36)] },
   -- /xox[baprs]-[0-9]{10,13}-[a-zA-Z0-9-]+/g
   { ci := false, type := .token, pieces :=
      [.lit "xox".data, .cls clsSlackKind 1 (some 1), .lit "-".data,
       .cls clsDigit 10 (some 13), .lit "-".data, .cls clsSlackTail 1 none] },
   -- /(?:mongodb|postgres|mysql|redis):\/\/[^\s'"]+:[^\s'"]+@[^\s'"]+/gi
   { ci := true, type := .connection_string, pieces :=
      [.litAlt ["mongodb".data, "postgres".data, "mysql".data, "redis".data],
       .lit "://".data, .cls clsNotWsQuote 1 none, .lit ":".data,
       .cls clsNotWsQuote 1 none, .lit "@".data, .cls clsNotWsQuote 1 none] },
   -- /(?:secret|private)\s*[:=]\s*['"]([^'"]{16,})['"]?/gi
   { ci := true, type := .api_key, pieces :=
      [.litAlt ["secret".data, "private".data],
       .cls clsWS 0 none, .cls clsColonEq 1 (some 1), .cls clsWS 0 none,
       .cls clsQuote 1 (some 1), .cls clsNotQuote 16 none, .optCls clsQuote] }]

/-- The replacement token of `maskSecret`. -/
def MASKED : List Char := "***MASKED***".data

/-- First `maskSecret` replacement (a quote, 16 or more secret-alphabet
characters, the same quote, globally) producing `$1***MASKED***$1`: a quoted run of at least 16 secret-alphabet characters
closed by the same quote. The run is maximal and the alphabet excludes
quotes, so the greedy match is deterministic. One unit of fuel is spent per
consumed character, so `length + 1` fuel runs the scan to completion. -/
def mask1Go : Nat → List Char → List Char
  | 0, s => s
  | _ + 1, [] => []
  | fuel + 1, c :: t =>
    if clsQuote c then
      let run := runLen clsSecretValChar t
      if 16 ≤ run && (t.drop run).head? = some c then
        (c :: MASKED ++ [c]) ++ mask1Go fuel (t.drop (run + 1))
      else c :: mask1Go fuel t
    else c :: mask1Go fuel t

/-- Second `maskSecret` replacement (colon or equals, optional whitespace,
20 or more secret-alphabet characters, globally), replaced by the literal
`: ***MASKED***`. -/
def mask2Go : Nat → List Char → List Char
  | 0, s => s
  | _ + 1, [] => []
  | fuel + 1, c :: t =>
    if clsColonEq c then
      let ws := runLen clsWS t
      let run := runLen clsSecretValChar (t.drop ws)
      if 20 ≤ run then
        (": ".data ++ MASKED) ++ mask2Go fuel (t.drop (ws + run))
      else c :: mask2Go fuel t
    else c :: mask2Go fuel t

/-- `maskSecret(line)`: both replacement passes in order. -/
def maskSecret (line : List Char) : List Char :=
  let pass1 := mask1Go (line.length + 1) line
  mask2Go (pass1.length + 1) pass1

/-- `content.split('\n')`. -/
def splitNl : List Char → List (List Char)
  | [] => [[]]
  | c :: t =>
    if c = '\n' then [] :: splitNl t
    else
      match splitNl t with
      | [] => [[c]]
      | l :: ls => (c :: l) :: ls

/-- `isInComment(line, _match)`: the trimmed line starts with a comment
token. -/
def isInComment (line : List Char) : Bool :=
  let trimmed := trimList line
  "//".data.isPrefixOf trimmed || "#".data.isPrefixOf trimmed ||
    "*".data.isPrefixOf trimmed || "/*".data.isPrefixOf trimmed

/-- The placeholder fragments checked by `isPlaceholder` (`${` and `{{`
written with escapes). -/
def PLACEHOLDERS : List String :=
  ["your-", "xxx", "placeholder", "example", "changeme", "replace-",
   "todo", "fixme", "<your", "$\x7b", "\x7b\x7b"]

/-- `isPlaceholder(value)`: the lower-cased match contains a placeholder
fragment. -/
def isPlaceholder (value : List Char) : Bool :=
  let lower := value.map Char.toLower
  PLACEHOLDERS.any (fun p => hasSub p.data lower)

/-- `isExampleFile(file, content)`. -/
def isExampleFile (file : String) (content : List Char) : Bool :=
  let lowerFile := lowerS file
  strHasSub ".example" lowerFile || strHasSub ".template" lowerFile ||
    strHasSub ".sample" lowerFile || endsWithS lowerFile ".md" ||
    hasSub "your-api-key-here".data content ||
    hasSub "YOUR_API_KEY".data content ||
    hasSub "xxx".data content

/-- The issues one pattern contributes in `scanContent`: for each match,
compute the 1-based line number from the newlines before the match offset,
fetch the line (`lines[lineNum-1] || ''`), apply the comment and placeholder
filters, and emit the masked trimmed line as snippet. -/
def issuesForPat (file : String) (content : List Char) (lines : List (List Char))
    (pat : SecretPat) : List SecretIssue :=
  (execAll pat content).filterMap (fun m =>
    let lineNum := (splitNl (content.take m.1)).length
    let line := lines.getD (lineNum - 1) []
    if isInComment line then none
    else if isPlaceholder ((content.drop m.1).take m.2) then none
    else some { file := file, line := lineNum, type := pat.type,
                snippet := maskSecret (trimList line) })

/-- `scanContent(file, content)`: example files are exempt from all content
rules; otherwise every pattern is run over the content. -/
def scanContent (file : String) (content : List Char) : List SecretIssue :=
  let lines := splitNl content
  if isExampleFile file content then []
  else (SECRET_PATTERNS.map (issuesForPat file content lines)).flatten

/-- Lookup in the modelled file system (`readFile`; `none` is an unreadable
file). -/
def readFS (fs : List (String × List Char)) (p : String) : Option (List Char) :=
  (fs.find? (fun e => e.1 == p)).map Prod.snd

/-- `scanForSecrets(repoPath, files)`: dangerous filenames short-circuit to
a `sensitive_file` issue at line 0; otherwise the content is scanned, and
unreadable files are skipped. -/
def scanForSecrets (fs : List (String × List Char)) (repoFiles : List String) :
    SecretScanResult :=
  let issues := repoFiles.flatMap (fun file =>
    if isDangerousFile file then
      [{ file := file, line := 0, type := .sensitive_file,
         snippet := ("File \x22" ++ basenameS file ++ "\x22 should never be uploaded").data }]
    else
      match readFS fs file with
      | some content => scanContent file content
      | none => [])
  { safe := issues.isEmpty, issues := issues }

/-- A password-shaped line whose secret value is shorter than the masking
thresholds. -/
def pwLine : List Char := "pwd: \x22hunter22\x22".data

/-- A file system holding a dangerous-but-example env file. -/
def envExampleFS : List (String × List Char) := [(".env.example", pwLine)]

/-! ## Bundle builder (source: `context-builder` module)

The file system is a list of entries with a byte size (`stat().size`) and a
content string (`readFile` in UTF-8); the content hash function of the
source (truncated SHA-256 hex via `hashContent`) is a parameter `h`. -/

structure FSEntry where
  path : String
  size : Nat
  content : String
deriving DecidableEq, Repr

/-- `stat` plus `readFile` for one path; `none` models a file whose read
throws (rejected, not fatal). -/
def readStat (fs : List FSEntry) (p : String) : Option (Nat × String) :=
  (fs.find? (fun e => e.path == p)).map (fun e => (e.size, e.content))

/-- The three numeric budget ceilings of `ContextConfig` (the
`includePatterns` field is never read by the source, and `excludePatterns`
is only ever read from `DEFAULT_CONFIG` inside the sample glob, modelled in
`archExcluded`). -/
structure ContextConfig where
  maxFiles : Nat
  maxTotalSize : Nat
  maxTokens : Nat
deriving DecidableEq, Repr

def DEFAULT_CONFIG : ContextConfig :=
  { maxFiles := 50, maxTotalSize := 500000, maxTokens := 100000 }

/-- Rough token estimation: about 4 characters per token. -/
def CHARS_PER_TOKEN : Nat := 4

structure AnalysisBundle where
  manifests : List String
  entrypoints : List String
  configs : List String
  docs : List String
  samples : List String
  contentHashes : List (String × String)
  totalTokenEstimate : Nat
deriving DecidableEq, Repr

/-- The five bucket names of `addFile`. -/
inductive BundleCat where
  | manifests
  | entrypoints
  | configs
  | docs
  | samples
deriving DecidableEq, Repr

/-- `bundle[category].push(path)`. -/
def pushCat (b : AnalysisBundle) (cat : BundleCat) (p : String) : AnalysisBundle :=
  match cat with
  | .manifests => { b with manifests := b.manifests ++ [p] }
  | .entrypoints => { b with entrypoints := b.entrypoints ++ [p] }
  | .configs => { b with configs := b.configs ++ [p] }
  | .docs => { b with docs := b.docs ++ [p] }
  | .samples => { b with samples := b.samples ++ [p] }

/-- JavaScript `Map.prototype.set`: replace in place when the key exists,
append otherwise. -/
def mapSet (m : List (String × String)) (k v : String) : List (String × String) :=
  if m.any (fun kv => kv.1 == k) then
    m.map (fun kv => if kv.1 == k then (k, v) else kv)
  else m ++ [(k, v)]

/-- `Map.prototype.get`. -/
def lookupA : List (String × String) → String → Option String
  | [], _ => none
  | (k, v) :: t, q => if k = q then some v else lookupA t q

def getTotalFiles (b : AnalysisBundle) : Nat :=
  b.manifests.length + b.entrypoints.length + b.configs.length +
    b.docs.length + b.samples.length

/-- `getBundleFiles(bundle)`: all files as a flat array, in bucket order. -/
def getBundleFiles (b : AnalysisBundle) : List String :=
  b.manifests ++ b.entrypoints ++ b.configs ++ b.docs ++ b.samples

/-- The builder state: the bundle plus the `currentSize` and
`currentTokens` accumulators closed over by `addFile`. -/
structure BuildState where
  bundle : AnalysisBundle
  currentSize : Nat
  currentTokens : Nat

def initialBundle : AnalysisBundle :=
  { manifests := [], entrypoints := [], configs := [], docs := [],
    samples := [], contentHashes := [], totalTokenEstimate := 0 }

def initialState : BuildState :=
  { bundle := initialBundle, currentSize := 0, currentTokens := 0 }

/-- The `addFile` helper of `buildAnalysisBundle`: read the file (failure
skips), compute size and `ceil(length / 4)` tokens, reject when admission
would exceed `maxTotalSize` or `maxTokens` or when the file count has
reached `maxFiles`; otherwise push the path, record the content hash, and
update the running totals. -/
def addFile (h : String → String) (fs : List FSEntry) (cfg : ContextConfig)
    (st : BuildState) (path : String) (cat : BundleCat) : BuildState :=
  match readStat fs path with
  | none => st
  | some (size, content) =>
    let tokens := (content.length + CHARS_PER_TOKEN - 1) / CHARS_PER_TOKEN
    if cfg.maxTotalSize < st.currentSize + size then st
    else if cfg.maxTokens < st.currentTokens + tokens then st
    else if cfg.maxFiles ≤ getTotalFiles st.bundle then st
    else
      { bundle :=
          { pushCat st.bundle cat path with
            contentHashes := mapSet st.bundle.contentHashes path (h content),
            totalTokenEstimate := st.currentTokens + tokens },
        currentSize := st.currentSize + size,
        currentTokens := st.currentTokens + tokens }

/-- The fields of `RepoIndex` that `buildAnalysisBundle` reads: manifest
paths, docs, configs, and entry points. -/
structure RepoIndexM where
  manifests : List String
  docs : List String
  configs : List String
  entrypoints : List String
deriving DecidableEq, Repr

def docPriority : List String :=
  ["README.md", "ARCHITECTURE.md", "CONTRIBUTING.md", "AGENTS.md"]

def configPriority : List String :=
  ["tsconfig.json", ".eslintrc.json", ".eslintrc.js", "eslint.config.js",
   "vite.config.ts", "webpack.config.js", ".github/workflows/ci.yml",
   ".github/workflows/ci.yaml", "docker-compose.yml"]

/-- Split a character list on a separator, as `String.prototype.split`. -/
def splitOnChar (sep : Char) : List Char → List (List Char)
  | [] => [[]]
  | c :: t =>
    if c = sep then [] :: splitOnChar sep t
    else
      match splitOnChar sep t with
      | [] => [[c]]
      | l :: ls => (c :: l) :: ls

/-- One architectural glob `**/dir/**/*.{exts}` of
`selectRepresentativeSamples`. -/
structure ArchPat where
  dir : String
  exts : List String

def architecturalPatterns : List ArchPat :=
  [⟨"services", [".ts", ".js"]⟩, ⟨"controllers", [".ts", ".js"]⟩,
   ⟨"models", [".ts", ".js"]⟩, ⟨"components", [".tsx", ".jsx"]⟩,
   ⟨"hooks", [".ts", ".tsx"]⟩, ⟨"utils", [".ts", ".js"]⟩,
   ⟨"lib", [".ts", ".js"]⟩, ⟨"api", [".ts", ".js"]⟩,
   ⟨"routes", [".ts", ".js"]⟩, ⟨"middleware", [".ts", ".js"]⟩]

/-- `**/dir/**/*.{exts}` with globstars matching zero or more segments:
some non-final path segment equals `dir`, and the filename has one of the
extensions and no leading dot (glob `*` does not match dotfiles). -/
def matchesArch (ap : ArchPat) (p : String) : Bool :=
  match (splitOnChar '/' p.data).reverse with
  | [] => false
  | last :: restRev =>
    restRev.any (fun seg => seg == ap.dir.data) &&
    (match last with
     | [] => false
     | c :: _ => c != '.') &&
    ap.exts.any (fun e => e.data.isSuffixOf last)

def EXCLUDED_DIRS : List String := ["node_modules", ".git", "dist", "build", "coverage"]

/-- The fixed `DEFAULT_CONFIG.excludePatterns` used by the sample glob:
directory globs over non-final segments, suffix globs and lockfile names
over the filename. -/
def archExcluded (p : String) : Bool :=
  match (splitOnChar '/' p.data).reverse with
  | [] => false
  | last :: restRev =>
    restRev.any (fun seg => EXCLUDED_DIRS.any (fun d => seg == d.data)) ||
    ".min.js".data.isSuffixOf last || ".bundle.js".data.isSuffixOf last ||
    ".lock".data.isSuffixOf last || last == "package-lock.json".data ||
    last == "yarn.lock".data || last == "pnpm-lock.yaml".data

/-- `glob(pattern, ...)` over the modelled file system; match order is the
file-system enumeration order (the source leaves glob ordering to the glob
library). -/
def globArch (fs : List FSEntry) (ap : ArchPat) : List String :=
  (fs.map (fun e => e.path)).filter (fun p => matchesArch ap p && !archExcluded p)

/-- The inner loop of `selectRepresentativeSamples`: take up to two matches
per pattern, stop at the budget, skip duplicates. -/
def pushMatches (maxCount : Nat) : List String → List String → List String
  | acc, [] => acc
  | acc, m :: ms =>
    if maxCount ≤ acc.length then acc
    else if acc.contains m then pushMatches maxCount acc ms
    else pushMatches maxCount (acc ++ [m]) ms

def selGo (fs : List FSEntry) (maxCount : Nat) : List ArchPat → List String → List String
  | [], acc => acc
  | ap :: rest, acc =>
    if maxCount ≤ acc.length then acc
    else selGo fs maxCount rest (pushMatches maxCount acc ((globArch fs ap).take 2))

/-- `selectRepresentativeSamples(repoPath, index, maxCount)` (the index
argument is unused by the source body). -/
def selectRepresentativeSamples (fs : List FSEntry) (maxCount : Nat) : List String :=
  if maxCount = 0 then [] else selGo fs maxCount architecturalPatterns []

/-- Priority 1 of `buildAnalysisBundle`: all detected manifests. -/
def buildPhase1 (h : String → String) (fs : List FSEntry) (cfg : ContextConfig)
    (index : RepoIndexM) (st : BuildState) : BuildState :=
  index.manifests.foldl (fun st p => addFile h fs cfg st p .manifests) st

/-- Priority 2a: the fixed doc priority names, matched case-insensitively
against the indexed docs. -/
def buildPhase2 (h : String → String) (fs : List FSEntry) (cfg : ContextConfig)
    (index : RepoIndexM) (st : BuildState) : BuildState :=
  docPriority.foldl (fun st d =>
    match index.docs.find? (fun x => lowerS x == lowerS d) with
    | some m => addFile h fs cfg st m .docs
    | none => st) st

/-- Priority 2b: the remaining indexed docs. -/
def buildPhase3 (h : String → String) (fs : List FSEntry) (cfg : ContextConfig)
    (index : RepoIndexM) (st : BuildState) : BuildState :=
  index.docs.foldl (fun st d =>
    if docPriority.any (fun p => lowerS d == lowerS p) then st
    else addFile h fs cfg st d .docs) st

/-- Priority 3: the fixed config priority names, matched by suffix or
equality. -/
def buildPhase4 (h : String → String) (fs : List FSEntry) (cfg : ContextConfig)
    (index : RepoIndexM) (st : BuildState) : BuildState :=
  configPriority.foldl (fun st c =>
    match index.configs.find? (fun x => endsWithS x c || x == c) with
    | some m => addFile h fs cfg st m .configs
    | none => st) st

/-- Priority 4: the indexed entry points. -/
def buildPhase5 (h : String → String) (fs : List FSEntry) (cfg : ContextConfig)
    (index : RepoIndexM) (st : BuildState) : BuildState :=
  index.entrypoints.foldl (fun st p => addFile h fs cfg st p .entrypoints) st

/-- Priority 5: representative samples up to the remaining file budget. -/
def buildPhase6 (h : String → String) (fs : List FSEntry) (cfg : ContextConfig)
    (st : BuildState) : BuildState :=
  (selectRepresentativeSamples fs (cfg.maxFiles - getTotalFiles st.bundle)).foldl
    (fun st p => addFile h fs cfg st p .samples) st

/-- The final builder state after the strict priority order of the source:
manifests, priority docs, remaining docs, priority configs, entry points,
then representative samples. -/
def buildFinalState (h : String → String) (fs : List FSEntry)
    (index : RepoIndexM) (cfg : ContextConfig) : BuildState :=
  buildPhase6 h fs cfg
    (buildPhase5 h fs cfg index
      (buildPhase4 h fs cfg index
        (buildPhase3 h fs cfg index
          (buildPhase2 h fs cfg index
            (buildPhase1 h fs cfg index initialState)))))

/-- `buildAnalysisBundle(repoPath, index, config)`. -/
def buildAnalysisBundle (h : String → String) (fs : List FSEntry)
    (index : RepoIndexM) (cfg : ContextConfig) : AnalysisBundle :=
  (buildFinalState h fs index cfg).bundle

/-- The byte size the file system records for a path (0 if unreadable). -/
def sizeOfPath (fs : List FSEntry) (p : String) : Nat :=
  match readStat fs p with
  | some (size, _) => size
  | none => 0

/-- The token estimate for a path (0 if unreadable). -/
def tokensOfPath (fs : List FSEntry) (p : String) : Nat :=
  match readStat fs p with
  | some (_, content) => (content.length + CHARS_PER_TOKEN - 1) / CHARS_PER_TOKEN
  | none => 0

/-- Sum of the byte sizes recorded in the file system for a path list (with
multiplicity). -/
def sumSizes (fs : List FSEntry) (paths : List String) : Nat :=
  (paths.map (sizeOfPath fs)).sum

/-- Sum of the token estimates for a path list (with multiplicity). -/
def sumTokens (fs : List FSEntry) (paths : List String) : Nat :=
  (paths.map (tokensOfPath fs)).sum

/-- The builder invariant: the accumulators track the accepted files and
stay within every ceiling. -/
def BuildInv (fs : List FSEntry) (cfg : ContextConfig) (st : BuildState) : Prop :=
  st.currentSize = sumSizes fs (getBundleFiles st.bundle) ∧
  st.currentTokens = sumTokens fs (getBundleFiles st.bundle) ∧
  st.bundle.totalTokenEstimate = st.currentTokens ∧
  st.currentSize ≤ cfg.maxTotalSize ∧
  st.currentTokens ≤ cfg.maxTokens ∧
  getTotalFiles st.bundle ≤ cfg.maxFiles

/-! ### Bundle hash (cache key) -/

/-- Lexicographic comparison of character lists, as the default JavaScript
`Array.prototype.sort` comparison of strings. -/
def lexLe : List Char → List Char → Bool
  | [], _ => true
  | _ :: _, [] => false
  | a :: as, b :: bs => if a < b then true else if a = b then lexLe as bs else false

def strLe (a b : String) : Bool := lexLe a.data b.data

/-- The proposition form of `strLe`, used for sortedness. -/
def strLeP (a b : String) : Prop := strLe a b = true

def insertStr (x : String) : List String → List String
  | [] => [x]
  | y :: ys => if strLe x y then x :: y :: ys else y :: insertStr x ys

/-- `Array.prototype.sort()` on strings (insertion sort; any comparison
sort agrees on the result). -/
def sortStrings : List String → List String
  | [] => []
  | x :: xs => insertStr x (sortStrings xs)

/-- `array.join(':')` on character lists. -/
def joinColonCh : List (List Char) → List Char
  | [] => []
  | [s] => s
  | s :: rest => s ++ ':' :: joinColonCh rest

/-- The joined sorted hash values `Array.from(values).sort().join(':')`. -/
def bundleKey (b : AnalysisBundle) : String :=
  String.mk (joinColonCh ((sortStrings (b.contentHashes.map Prod.snd)).map String.data))

/-- `getBundleHash(bundle) = hashContent(sorted hashes joined)`, with the
hash function `h` as parameter. -/
def getBundleHash (h : String → String) (b : AnalysisBundle) : String :=
  h (bundleKey b)

/-- An otherwise-empty bundle carrying a given content-hash map. -/
def mkBundleWith (m : List (String × String)) : AnalysisBundle :=
  { initialBundle with contentHashes := m }

/-- Fixture for the bucket-overlap counterexample: one file under `lib/`. -/
def libFS : List FSEntry := [⟨"lib/index.ts", 10, "export x"⟩]

/-- An index listing `lib/index.ts` as an entry point. -/
def libIndex : RepoIndexM := ⟨[], [], [], ["lib/index.ts"]⟩

/-! ## Theorems -/

lemma isPrefixOf_exists {l₁ l₂ : List Char} (h : l₁.isPrefixOf l₂ = true) :
    ∃ r, l₂ = l₁ ++ r := by
  induction l₁ generalizing l₂ with
  | nil => exact ⟨l₂, rfl⟩
  | cons a t ih =>
    cases l₂ with
    | nil => simp [List.isPrefixOf] at h
    | cons b t2 =>
      simp only [List.isPrefixOf, Bool.and_eq_true, beq_iff_eq] at h
      obtain ⟨rfl, h2⟩ := h
      obtain ⟨r, hr⟩ := ih h2
      exact ⟨r, by rw [hr]; rfl⟩

/-- When `findSub` reports index `i`, the needle fits inside the haystack at
`i` and the haystack decomposes there. -/
lemma findSub_spec {n h : List Char} {i : Nat} (hf : findSub n h = some i) :
    i + n.length ≤ h.length ∧ h.drop i = n ++ h.drop (i + n.length) := by
  induction h generalizing i with
  | nil =>
    simp only [findSub] at hf
    split at hf
    · obtain ⟨r, hr⟩ := isPrefixOf_exists (by assumption)
      cases hf
      rcases List.append_eq_nil.mp hr.symm with ⟨rfl, rfl⟩
      simp
    · cases hf
  | cons c t ih =>
    simp only [findSub] at hf
    split at hf
    · cases hf
      obtain ⟨r, hr⟩ := isPrefixOf_exists (by assumption)
      constructor
      · rw [hr]; simp
      · rw [hr]; simp [List.drop_left]
    · rw [Option.map_eq_some'] at hf
      obtain ⟨j, hj, rfl⟩ := hf
      obtain ⟨h1, h2⟩ := ih hj
      constructor
      · simp only [List.length_cons]; omega
      · have harith : j + 1 + n.length = (j + n.length) + 1 := by omega
        rw [harith]
        simpa using h2

lemma jsSubstring_take (s : List Char) (k : Nat) (hk : k ≤ s.length) :
    jsSubstring s 0 k = s.take k := by
  simp only [jsSubstring]
  have h1 : min (min 0 k) s.length = 0 := by omega
  have h2 : min (max 0 k) s.length = k := by omega
  rw [h1, h2]
  simp

lemma jsSubstring_dropToEnd (s : List Char) (e : Nat) (he : e ≤ s.length) :
    jsSubstring s e s.length = s.drop e := by
  simp only [jsSubstring]
  have h1 : min (min e s.length) s.length = e := by omega
  have h2 : min (max e s.length) s.length = s.length := by omega
  rw [h1, h2]
  exact List.take_of_length_le (by rw [List.length_drop])

lemma jsSubstring_mid (s : List Char) (a b : Nat) (h1 : a ≤ b) (h2 : b ≤ s.length) :
    jsSubstring s a b = (s.drop a).take (b - a) := by
  simp only [jsSubstring]
  have e1 : min (min a b) s.length = a := by omega
  have e2 : min (max a b) s.length = b := by omega
  rw [e1, e2]

/-- Unfolding of `replaceRegion` when both markers are found. -/
lemma replaceRegion_eq (doc nc : List Char) (b e : Nat)
    (hb : findSub BEGIN_MARKER doc = some b)
    (he : findSub END_MARKER doc = some e) :
    replaceRegion doc nc =
      .ok (doc.take (b + BEGIN_MARKER.length) ++
        '\n' :: (trimList nc ++ '\n' :: doc.drop e)) := by
  have hbl : b + BEGIN_MARKER.length ≤ doc.length := (findSub_spec hb).1
  have hel : e ≤ doc.length := by
    have := (findSub_spec he).1
    omega
  unfold replaceRegion
  rw [hb, he]
  dsimp only
  rw [jsSubstring_take _ _ hbl, jsSubstring_dropToEnd _ _ hel]

/-- C1: for a document holding both markers in order, `replaceRegion`
decomposes the document as `pre ++ mid ++ post` where `pre` ends with the
BEGIN marker (everything up to and including it), `post` starts with the END
marker (everything from it onward), and the result keeps `pre` and `post`
byte-for-byte while replacing only the interior `mid` with a newline, the
trimmed new content, and a newline. -/
theorem replaceRegion_preserves_frame (doc nc : List Char) (b e : Nat)
    (hb : findSub BEGIN_MARKER doc = some b)
    (he : findSub END_MARKER doc = some e)
    (hord : b + BEGIN_MARKER.length ≤ e) :
    ∃ pre mid post,
      doc = pre ++ mid ++ post ∧
      pre.length = b + BEGIN_MARKER.length ∧
      (∃ u, pre = u ++ BEGIN_MARKER) ∧
      (∃ v, post = END_MARKER ++ v) ∧
      post = doc.drop e ∧
      replaceRegion doc nc =
        .ok (pre ++ '\n' :: (trimList nc ++ '\n' :: post)) := by
  obtain ⟨hbl, hbdec⟩ := findSub_spec hb
  obtain ⟨hel', hedec⟩ := findSub_spec he
  have hel : e ≤ doc.length := by omega
  refine ⟨doc.take (b + BEGIN_MARKER.length),
    (doc.drop (b + BEGIN_MARKER.length)).take (e - (b + BEGIN_MARKER.length)),
    doc.drop e, ?_, ?_, ?_, ?_, rfl, ?_⟩
  · have h1 : (doc.drop (b + BEGIN_MARKER.length)).take (e - (b + BEGIN_MARKER.length)) ++
        doc.drop e = doc.drop (b + BEGIN_MARKER.length) := by
      conv_rhs => rw [← List.take_append_drop (e - (b + BEGIN_MARKER.length))
        (doc.drop (b + BEGIN_MARKER.length))]
      rw [List.drop_drop, Nat.add_sub_cancel' hord]
    rw [List.append_assoc, h1, List.take_append_drop]
  · rw [List.length_take]
    exact min_eq_left hbl
  · refine ⟨doc.take b, ?_⟩
    rw [List.take_add]
    congr 1
    rw [hbdec]
    exact List.take_left _ _
  · exact ⟨_, hedec⟩
  · exact replaceRegion_eq doc nc b e hb he

/-- Witness for C1 at a concrete well-formed document. -/
theorem replaceRegion_preserves_frame_witness :
    ∃ pre mid post,
      sampleDoc = pre ++ mid ++ post ∧
      pre.length = 0 + BEGIN_MARKER.length ∧
      (∃ u, pre = u ++ BEGIN_MARKER) ∧
      (∃ v, post = END_MARKER ++ v) ∧
      post = sampleDoc.drop 28 ∧
      replaceRegion sampleDoc " fresh ".data =
        .ok (pre ++ '\n' :: (trimList " fresh ".data ++ '\n' :: post)) :=
  replaceRegion_preserves_frame sampleDoc " fresh ".data 0 28
    (by decide) (by decide) (by decide)

/-- C7: when either marker is absent, `replaceRegion` fails with the
region-not-found error; it never returns a modified document. -/
theorem replaceRegion_missing_error (doc nc : List Char)
    (h : findSub BEGIN_MARKER doc = none ∨ findSub END_MARKER doc = none) :
    replaceRegion doc nc =
      .error "Auracoil region markers not found in document" := by
  rcases h with h | h
  · cases hE : findSub END_MARKER doc <;> simp [replaceRegion, h, hE]
  · cases hB : findSub BEGIN_MARKER doc <;> simp [replaceRegion, h, hB]

/-- Witness for C7 at a concrete marker-free document. -/
theorem replaceRegion_missing_error_witness :
    replaceRegion "no markers here".data "x".data =
      .error "Auracoil region markers not found in document" :=
  replaceRegion_missing_error _ _ (Or.inl (by decide))

/-! ### Trim lemmas -/

lemma dropWhile_head_false {p : Char → Bool} {l : List Char} {c : Char}
    {t : List Char} (h : l.dropWhile p = c :: t) : p c = false := by
  induction l with
  | nil => simp at h
  | cons a l' ih =>
    rw [List.dropWhile_cons] at h
    split at h
    · exact ih h
    · rename_i hpa
      cases h
      simpa using hpa

lemma dropWhile_idem (p : Char → Bool) (l : List Char) :
    (l.dropWhile p).dropWhile p = l.dropWhile p := by
  cases h : l.dropWhile p with
  | nil => simp
  | cons c t =>
    have hc := dropWhile_head_false h
    rw [List.dropWhile_cons, hc]
    simp

lemma trimEndL_idem (s : List Char) : trimEndL (trimEndL s) = trimEndL s := by
  unfold trimEndL
  rw [List.reverse_reverse, dropWhile_idem]

lemma trimEndL_exists_rest (s : List Char) : ∃ r, s = trimEndL s ++ r := by
  obtain ⟨t, ht⟩ := List.dropWhile_suffix (l := s.reverse) isJSWhite
  refine ⟨t.reverse, ?_⟩
  have h2 := congrArg List.reverse ht
  rw [List.reverse_append, List.reverse_reverse] at h2
  exact h2.symm

lemma trimStart_trimEndL_trimStart (s : List Char) :
    trimStart (trimEndL (trimStart s)) = trimEndL (trimStart s) := by
  cases hx : trimStart s with
  | nil => rfl
  | cons c t =>
    have hc : isJSWhite c = false := dropWhile_head_false hx
    obtain ⟨r, hr⟩ := trimEndL_exists_rest (c :: t)
    cases he : trimEndL (c :: t) with
    | nil => rfl
    | cons d u =>
      have hd : d = c := by
        rw [he] at hr
        cases hr
        rfl
      show List.dropWhile isJSWhite (d :: u) = d :: u
      rw [List.dropWhile_cons, hd, hc]
      simp

lemma trim_idem (s : List Char) : trimList (trimList s) = trimList s := by
  unfold trimList
  rw [trimStart_trimEndL_trimStart, trimEndL_idem]

lemma trimStart_cons_ws {w : Char} (h : isJSWhite w = true) (s : List Char) :
    trimStart (w :: s) = trimStart s := by
  simp [trimStart, List.dropWhile_cons, h]

lemma trimEndL_append_ws {w : Char} (h : isJSWhite w = true) (s : List Char) :
    trimEndL (s ++ [w]) = trimEndL s := by
  unfold trimEndL
  rw [List.reverse_append]
  simp [List.dropWhile_cons, h]

lemma trimStart_append_of_ne {s : List Char} (h : trimStart s ≠ [])
    (u : List Char) : trimStart (s ++ u) = trimStart s ++ u := by
  induction s with
  | nil => exact absurd rfl h
  | cons a t ih =>
    by_cases ha : isJSWhite a = true
    · have h' : trimStart t ≠ [] := by
        intro hnil
        apply h
        rw [show trimStart (a :: t) = trimStart t from by
          simp [trimStart, List.dropWhile_cons, ha]]
        exact hnil
      have hat : trimStart (a :: t) = trimStart t := by
        simp [trimStart, List.dropWhile_cons, ha]
      have hstep : trimStart ((a :: t) ++ u) = trimStart (t ++ u) := by
        simp [trimStart, List.dropWhile_cons, ha]
      rw [hstep, ih h', hat]
    · have hat : trimStart (a :: t) = a :: t := by
        simp [trimStart, List.dropWhile_cons, ha]
      have hstep : trimStart ((a :: t) ++ u) = a :: (t ++ u) := by
        simp [trimStart, List.dropWhile_cons, ha]
      rw [hstep, hat]
      simp

lemma trimStart_append_of_nil {s : List Char} (h : trimStart s = [])
    (u : List Char) : trimStart (s ++ u) = trimStart u := by
  induction s with
  | nil => rfl
  | cons a t ih =>
    by_cases ha : isJSWhite a = true
    · have h' : trimStart t = [] := by
        have := h
        simpa [trimStart, List.dropWhile_cons, ha] using this
      show List.dropWhile isJSWhite (a :: (t ++ u)) = _
      rw [List.dropWhile_cons, if_pos ha]
      exact ih h'
    · exfalso
      have : trimStart (a :: t) = a :: t := by
        simp [trimStart, List.dropWhile_cons, ha]
      rw [this] at h
      cases h

lemma trimList_cons_ws {w : Char} (h : isJSWhite w = true) (s : List Char) :
    trimList (w :: s) = trimList s := by
  unfold trimList
  rw [trimStart_cons_ws h]

lemma trimList_append_ws {w : Char} (h : isJSWhite w = true) (s : List Char) :
    trimList (s ++ [w]) = trimList s := by
  unfold trimList
  cases hs : trimStart s with
  | nil =>
    have hw : trimStart [w] = [] := by
      simp [trimStart, List.dropWhile_cons, h]
    rw [trimStart_append_of_nil hs, hw]
  | cons c t =>
    have h' : trimStart s ≠ [] := by
      rw [hs]
      exact List.cons_ne_nil _ _
    rw [trimStart_append_of_ne h', hs]
    exact trimEndL_append_ws h _

/-- Trimming strips a leading and a trailing newline. -/
lemma trim_norm (s : List Char) :
    trimList ('\n' :: (s ++ ['\n'])) = trimList s := by
  rw [trimList_cons_ws (by decide), trimList_append_ws (by decide)]

/-- Pure decomposition of a list at two cut points. -/
lemma take_take_drop_decomp (l : List Char) (i j : Nat) (hij : i ≤ j) :
    l = l.take i ++ (l.drop i).take (j - i) ++ l.drop j := by
  have h1 : (l.drop i).take (j - i) ++ l.drop j = l.drop i := by
    conv_rhs => rw [← List.take_append_drop (j - i) (l.drop i)]
    rw [List.drop_drop, Nat.add_sub_cancel' hij]
  rw [List.append_assoc, h1, List.take_append_drop]

/-- Unfolding of `extractRegion` when both markers are found in order. -/
lemma extractRegion_eq (doc : List Char) (b e : Nat)
    (hb : findSub BEGIN_MARKER doc = some b)
    (he : findSub END_MARKER doc = some e)
    (hord : b + BEGIN_MARKER.length ≤ e) :
    extractRegion doc = some (trimList
      ((doc.drop (b + BEGIN_MARKER.length)).take (e - (b + BEGIN_MARKER.length)))) := by
  have hel : e ≤ doc.length := by
    have := (findSub_spec he).1
    omega
  unfold extractRegion
  rw [hb, he]
  dsimp only
  rw [jsSubstring_mid _ _ _ hord hel]

/-- C2 (amended): for a document holding both markers in order,
`replaceRegion(doc, extractRegion(doc))` replaces the region interior with a
newline, the trimmed original interior, and a newline, leaving everything
else byte-identical; in particular it returns `doc` itself whenever the
interior already has that normalized form. -/
theorem extract_replace_roundTrip (doc : List Char) (b e : Nat)
    (hb : findSub BEGIN_MARKER doc = some b)
    (he : findSub END_MARKER doc = some e)
    (hord : b + BEGIN_MARKER.length ≤ e) :
    ∃ s, extractRegion doc = some s ∧
      replaceRegion doc s =
        .ok (doc.take (b + BEGIN_MARKER.length) ++ '\n' :: (s ++ '\n' :: doc.drop e)) ∧
      ((doc.drop (b + BEGIN_MARKER.length)).take (e - (b + BEGIN_MARKER.length)) =
          '\n' :: (s ++ ['\n']) →
        replaceRegion doc s = .ok doc) := by
  refine ⟨trimList ((doc.drop (b + BEGIN_MARKER.length)).take
      (e - (b + BEGIN_MARKER.length))), extractRegion_eq doc b e hb he hord, ?_, ?_⟩
  · rw [replaceRegion_eq doc _ b e hb he, trim_idem]
  · intro hI
    rw [replaceRegion_eq doc _ b e hb he, trim_idem]
    congr 1
    conv_rhs => rw [take_take_drop_decomp doc (b + BEGIN_MARKER.length) e hord, hI]
    simp

/-- Witness for C2 (amended) at a concrete well-formed document. -/
theorem extract_replace_roundTrip_witness :
    ∃ s, extractRegion sampleDoc = some s ∧
      replaceRegion sampleDoc s =
        .ok (sampleDoc.take (0 + BEGIN_MARKER.length) ++
          '\n' :: (s ++ '\n' :: sampleDoc.drop 28)) ∧
      ((sampleDoc.drop (0 + BEGIN_MARKER.length)).take
          (28 - (0 + BEGIN_MARKER.length)) = '\n' :: (s ++ ['\n']) →
        replaceRegion sampleDoc s = .ok sampleDoc) :=
  extract_replace_roundTrip sampleDoc 0 28 (by decide) (by decide) (by decide)

/-- Counterexample for C2 as stated: `reversedDoc` contains each marker
exactly once (END before BEGIN), and the text between the two markers in
document order is a blank line, which is exactly the normalized form of an
empty region body, yet the round trip does not reproduce the document: the
`substring` argument swap makes `extractRegion` return the whole document
and `replaceRegion` then triplicates it. -/
theorem extract_replace_roundTrip_counterexample :
    countSub BEGIN_MARKER reversedDoc = 1 ∧
    countSub END_MARKER reversedDoc = 1 ∧
    extractRegion reversedDoc = some reversedDoc ∧
    replaceRegion reversedDoc reversedDoc =
      .ok (reversedDoc ++ '\n' :: (reversedDoc ++ '\n' :: reversedDoc)) ∧
    reversedDoc ++ '\n' :: (reversedDoc ++ '\n' :: reversedDoc) ≠ reversedDoc := by
  refine ⟨by decide, by decide, by decide, by decide, by decide⟩

/-! ### Occurrence-counting lemmas for `ensureRegion` -/

lemma isPrefixOf_refl_append (l r : List Char) : l.isPrefixOf (l ++ r) = true := by
  induction l with
  | nil => simp [List.isPrefixOf]
  | cons a t ih => simp [List.isPrefixOf, ih]

lemma take_isPrefixOf (l : List Char) (k : Nat) : (l.take k).isPrefixOf l = true := by
  have h := isPrefixOf_refl_append (l.take k) (l.drop k)
  rwa [List.take_append_drop] at h

lemma hasSub_cons (n : List Char) (c : Char) (t : List Char) :
    hasSub n (c :: t) = (n.isPrefixOf (c :: t) || hasSub n t) := by
  by_cases hp : n.isPrefixOf (c :: t) = true
  · simp [hasSub, findSub, hp]
  · simp only [hasSub, findSub]
    rw [if_neg hp]
    cases hf : findSub n t <;> simp [hf, hp]

lemma hasSub_iff_countSub {n h : List Char} :
    hasSub n h = true ↔ 0 < countSub n h := by
  induction h with
  | nil =>
    by_cases hp : n.isPrefixOf ([] : List Char) = true <;>
      simp [hasSub, findSub, countSub, hp]
  | cons c t ih =>
    by_cases hp : n.isPrefixOf (c :: t) = true
    · simp [hasSub, findSub, countSub, hp]
    · simp only [countSub, hasSub, findSub]
      rw [if_neg hp, if_neg hp]
      simp only [Nat.zero_add]
      constructor
      · intro hsome
        apply ih.mp
        cases hf : findSub n t with
        | none => rw [hf] at hsome; simp at hsome
        | some j => simp [hasSub, hf]
      · intro hpos
        have := ih.mpr hpos
        cases hf : findSub n t with
        | none => rw [hasSub, hf] at this; simp at this
        | some j => simp [hf]

lemma hasSub_append_left {n p : List Char} (h : hasSub n p = true) (r : List Char) :
    hasSub n (p ++ r) = true := by
  induction p with
  | nil =>
    by_cases hp : n.isPrefixOf ([] : List Char) = true
    · obtain ⟨q, hq⟩ := isPrefixOf_exists hp
      obtain ⟨rfl, rfl⟩ := List.append_eq_nil.mp hq.symm
      cases r <;> simp [hasSub, findSub, List.isPrefixOf]
    · simp [hasSub, findSub, hp] at h
  | cons c t ih =>
    rw [List.cons_append, hasSub_cons]
    rw [hasSub_cons] at h
    rcases Bool.or_eq_true_iff.mp h with hp | ht
    · obtain ⟨q, hq⟩ := isPrefixOf_exists hp
      have hsplit : c :: (t ++ r) = n ++ (q ++ r) := by
        rw [← List.cons_append, hq, List.append_assoc]
      rw [hsplit, isPrefixOf_refl_append]
      simp
    · rw [ih ht]
      simp

lemma hasSub_append_right {n r : List Char} (h : hasSub n r = true) (p : List Char) :
    hasSub n (p ++ r) = true := by
  induction p with
  | nil => simpa using h
  | cons c t ih =>
    rw [List.cons_append, hasSub_cons, ih]
    simp

/-- Occurrences of a newline-free pattern cannot cross into a part that
starts with a newline, so counting restarts there. -/
lemma countSub_append_newline {n : List Char} (hnl : '\n' ∉ n) (xs ys : List Char)
    (hx : hasSub n xs = false) :
    countSub n (xs ++ '\n' :: ys) = countSub n ('\n' :: ys) := by
  induction xs with
  | nil => rfl
  | cons c t ih =>
    have hsplit := Bool.or_eq_false_iff.mp (hasSub_cons n c t ▸ hx)
    have hnp : n.isPrefixOf (c :: (t ++ '\n' :: ys)) = false := by
      by_cases hp : n.isPrefixOf (c :: (t ++ '\n' :: ys)) = true
      · exfalso
        obtain ⟨r, hr⟩ := isPrefixOf_exists hp
        rcases le_or_lt n.length (t.length + 1) with hle | hgt
        · have h1 : n = (c :: (t ++ '\n' :: ys)).take n.length := by
            rw [hr]
            exact (List.take_left n r).symm
          have h3 : n = (c :: t).take n.length := by
            conv_lhs => rw [h1]
            rw [show (c :: (t ++ '\n' :: ys)) = (c :: t) ++ '\n' :: ys from by simp]
            exact List.take_append_of_le_length (by simpa using hle)
          have hpre : n.isPrefixOf (c :: t) = true := by
            conv_lhs => rw [h3]
            exact take_isPrefixOf _ _
          rw [hpre] at hsplit
          cases hsplit.1
        · have h1 : n.take (t.length + 2) = ((c :: t) ++ '\n' :: ys).take (t.length + 2) := by
            rw [show ((c :: t) ++ '\n' :: ys) = n ++ r from by simpa using hr,
              List.take_append_of_le_length (by omega)]
          have h2 : ((c :: t) ++ '\n' :: ys).take (t.length + 2) = (c :: t) ++ ['\n'] := by
            rw [show t.length + 2 = (c :: t).length + 1 from by simp,
              List.take_append]
            simp
          have hmem : '\n' ∈ n.take (t.length + 2) := by
            rw [h1, h2]
            simp
          exact hnl (List.take_subset _ _ hmem)
      · exact Bool.eq_false_iff.mpr hp
    rw [List.cons_append]
    show (if n.isPrefixOf (c :: (t ++ '\n' :: ys)) = true then 1 else 0) +
        countSub n (t ++ '\n' :: ys) = _
    rw [hnp, ih hsplit.2]
    simp

/-- C8 (amended): `ensureRegion` returns the document unchanged whenever the
BEGIN marker is present (even without the END marker), it is idempotent,
and for a document containing at most one BEGIN occurrence, applying it
twice yields a document with exactly one BEGIN occurrence. -/
theorem ensureRegion_idem (doc : List Char)
    (h : countSub BEGIN_MARKER doc ≤ 1) :
    (hasSub BEGIN_MARKER doc = true → ensureRegion doc = doc) ∧
    ensureRegion (ensureRegion doc) = ensureRegion doc ∧
    countSub BEGIN_MARKER (ensureRegion (ensureRegion doc)) = 1 := by
  have hid : ∀ x, hasSub BEGIN_MARKER x = true → ensureRegion x = x := by
    intro x hx
    simp [ensureRegion, hx]
  by_cases hb : hasSub BEGIN_MARKER doc = true
  · have he := hid doc hb
    have hc : countSub BEGIN_MARKER doc = 1 := by
      have := hasSub_iff_countSub.mp hb
      omega
    exact ⟨fun _ => he, by rw [he, he], by rw [he, he]; exact hc⟩
  · have hb' : hasSub BEGIN_MARKER doc = false := Bool.eq_false_iff.mpr hb
    have he1 : ensureRegion doc =
        trimEndL doc ++ '\n' :: '\n' :: (DEFAULT_REGION ++ ['\n']) := by
      simp [ensureRegion, hb']
    have hafter : hasSub BEGIN_MARKER (ensureRegion doc) = true := by
      rw [he1]
      exact hasSub_append_right (by decide) _
    have he2 := hid _ hafter
    refine ⟨fun hcontra => absurd hcontra hb, he2, ?_⟩
    rw [he2, he1]
    have htrim : hasSub BEGIN_MARKER (trimEndL doc) = false := by
      by_cases hcase : hasSub BEGIN_MARKER (trimEndL doc) = true
      · exfalso
        obtain ⟨r, hr⟩ := trimEndL_exists_rest doc
        have : hasSub BEGIN_MARKER doc = true := by
          rw [hr]
          exact hasSub_append_left hcase r
        rw [this] at hb'
        cases hb'
      · exact Bool.eq_false_iff.mpr hcase
    rw [countSub_append_newline (by decide) _ _ htrim]
    decide

/-- Witness for C8 (amended) at a concrete marker-free document. -/
theorem ensureRegion_idem_witness :
    (hasSub BEGIN_MARKER "hello".data = true →
      ensureRegion "hello".data = "hello".data) ∧
    ensureRegion (ensureRegion "hello".data) = ensureRegion "hello".data ∧
    countSub BEGIN_MARKER (ensureRegion (ensureRegion "hello".data)) = 1 :=
  ensureRegion_idem "hello".data (by decide)

/-- Counterexample for C8 as stated: a document already containing two BEGIN
markers is returned unchanged, so applying `ensureRegion` twice leaves two
BEGIN markers, not exactly one. -/
theorem ensureRegion_counterexample :
    hasSub BEGIN_MARKER doubleBegin = true ∧
    ensureRegion doubleBegin = doubleBegin ∧
    countSub BEGIN_MARKER (ensureRegion (ensureRegion doubleBegin)) = 2 := by
  refine ⟨by decide, by decide, by decide⟩

/-- C10: when the first END occurrence precedes the first BEGIN occurrence,
`replaceRegion` raises no error; writing `span` for the slice of the input
from the END marker through the end of the BEGIN marker, the result is the
prefix before END, then `span`, then newline/trimmed content/newline, then
`span` again, then the suffix after BEGIN — so the span from END through
BEGIN (which starts with END and ends with BEGIN) appears twice. -/
theorem replaceRegion_reversed_duplicates (doc nc : List Char) (b e : Nat)
    (hb : findSub BEGIN_MARKER doc = some b)
    (he : findSub END_MARKER doc = some e)
    (hlt : e < b) :
    ∃ span,
      span = (doc.drop e).take (b + BEGIN_MARKER.length - e) ∧
      (∃ v, span = END_MARKER ++ v) ∧
      (∃ u, span = u ++ BEGIN_MARKER) ∧
      replaceRegion doc nc =
        .ok (doc.take e ++ span ++
          '\n' :: (trimList nc ++
            '\n' :: (span ++ doc.drop (b + BEGIN_MARKER.length)))) := by
  obtain ⟨hbl, hbdec⟩ := findSub_spec hb
  obtain ⟨hel, hedec⟩ := findSub_spec he
  refine ⟨(doc.drop e).take (b + BEGIN_MARKER.length - e), rfl, ?_, ?_, ?_⟩
  · have hB : BEGIN_MARKER.length = 23 := by decide
    have hE : END_MARKER.length = 21 := by decide
    obtain ⟨k, hk⟩ : ∃ k, b + BEGIN_MARKER.length - e = END_MARKER.length + k :=
      ⟨b + BEGIN_MARKER.length - e - END_MARKER.length, by omega⟩
    refine ⟨(doc.drop (e + END_MARKER.length)).take k, ?_⟩
    rw [hedec, hk, List.take_append]
  · refine ⟨(doc.drop e).take (b - e), ?_⟩
    rw [show b + BEGIN_MARKER.length - e = (b - e) + BEGIN_MARKER.length from by omega,
      List.take_add, List.drop_drop, show e + (b - e) = b from by omega, hbdec,
      List.take_left]
  · rw [replaceRegion_eq doc nc b e hb he]
    have hsplit1 : doc.take (b + BEGIN_MARKER.length) =
        doc.take e ++ (doc.drop e).take (b + BEGIN_MARKER.length - e) := by
      conv_lhs => rw [show b + BEGIN_MARKER.length = e + (b + BEGIN_MARKER.length - e)
        from by omega]
      exact List.take_add doc e (b + BEGIN_MARKER.length - e)
    have hsplit2 : doc.drop e =
        (doc.drop e).take (b + BEGIN_MARKER.length - e) ++
          doc.drop (b + BEGIN_MARKER.length) := by
      conv_lhs => rw [← List.take_append_drop (b + BEGIN_MARKER.length - e) (doc.drop e)]
      rw [List.drop_drop, show e + (b + BEGIN_MARKER.length - e) = b + BEGIN_MARKER.length
        from by omega]
    set span := (doc.drop e).take (b + BEGIN_MARKER.length - e) with hspan
    rw [hsplit1, hsplit2]

/-- Witness for C10 at a concrete document with END before BEGIN. -/
theorem replaceRegion_reversed_duplicates_witness :
    ∃ span,
      span = (reversedDocX.drop 0).take (22 + BEGIN_MARKER.length - 0) ∧
      (∃ v, span = END_MARKER ++ v) ∧
      (∃ u, span = u ++ BEGIN_MARKER) ∧
      replaceRegion reversedDocX "new".data =
        .ok (reversedDocX.take 0 ++ span ++
          '\n' :: (trimList "new".data ++
            '\n' :: (span ++ reversedDocX.drop (22 + BEGIN_MARKER.length)))) :=
  replaceRegion_reversed_duplicates reversedDocX "new".data 22 0
    (by decide) (by decide) (by decide)

/-! ### Secret scanner claims -/

/-- C5 (amended): for any file whose (lower-cased) name contains
`.example`, `.template`, or `.sample`, or ends in `.md`, the content rules
are exempted entirely: `scanContent` returns no issues for any content; and
when the filename is not itself on the dangerous-filename list,
`scanForSecrets` reports the file safe with zero issues. -/
theorem exampleFile_zero_issues (fs : List (String × List Char)) (file : String)
    (hex : strHasSub ".example" (lowerS file) = true ∨
      strHasSub ".template" (lowerS file) = true ∨
      strHasSub ".sample" (lowerS file) = true ∨
      endsWithS (lowerS file) ".md" = true) :
    (∀ content, scanContent file content = []) ∧
    (isDangerousFile file = false →
      scanForSecrets fs [file] = { safe := true, issues := [] }) := by
  have hzero : ∀ content, scanContent file content = [] := by
    intro content
    have hex' : isExampleFile file content = true := by
      unfold isExampleFile
      rcases hex with h | h | h | h <;> simp [h]
    simp [scanContent, hex']
  refine ⟨hzero, fun hd => ?_⟩
  cases hr : readFS fs file <;>
    simp [scanForSecrets, hd, hr, hzero]

/-- Witness for C5 (amended) at a concrete example file holding a
password-shaped literal. -/
theorem exampleFile_zero_issues_witness :
    (∀ content, scanContent "config.example.ts" content = []) ∧
    (isDangerousFile "config.example.ts" = false →
      scanForSecrets [("config.example.ts", pwLine)] ["config.example.ts"] =
        { safe := true, issues := [] }) :=
  exampleFile_zero_issues [("config.example.ts", pwLine)] "config.example.ts"
    (Or.inl (by decide))

/-- Counterexample for C5 as stated: `.env.example` contains `.example`,
yet `scanForSecrets` produces one issue for it, because the
dangerous-filename check runs before the example-file exemption. -/
theorem exampleFile_counterexample :
    strHasSub ".example" (lowerS ".env.example") = true ∧
    scanForSecrets envExampleFS [".env.example"] =
      { safe := false,
        issues := [{ file := ".env.example", line := 0,
                     type := .sensitive_file,
                     snippet := "File \x22.env.example\x22 should never be uploaded".data }] } := by
  exact ⟨by decide, by decide⟩

/-- C6 (amended): every issue produced by `scanContent` carries as snippet
the `maskSecret` image of the trimmed source line it was found on; the
masking replaces quoted runs of 16 or more secret-alphabet characters and
post-delimiter runs of 20 or more, so shorter secrets can survive
unmasked. -/
theorem scanContent_snippet_masked (file : String) (content : List Char)
    (iss : SecretIssue) (hmem : iss ∈ scanContent file content) :
    ∃ ln, iss.line = ln ∧
      iss.snippet = maskSecret (trimList ((splitNl content).getD (ln - 1) [])) := by
  unfold scanContent at hmem
  by_cases hex : isExampleFile file content = true
  · rw [if_pos hex] at hmem
    cases hmem
  · rw [if_neg hex] at hmem
    obtain ⟨l, hl, hml⟩ := List.mem_flatten.mp hmem
    obtain ⟨pat, _, rfl⟩ := List.mem_map.mp hl
    obtain ⟨m, _, hf⟩ := List.mem_filterMap.mp hml
    dsimp only [issuesForPat] at hf
    split at hf
    · cases hf
    · split at hf
      · cases hf
      · cases hf
        exact ⟨_, rfl, rfl⟩

/-- Witness for C6 (amended) at the concrete password line. -/
theorem scanContent_snippet_masked_witness :
    ∃ ln, (⟨"config.ts", 1, SecretType.password, pwLine⟩ : SecretIssue).line = ln ∧
      (⟨"config.ts", 1, SecretType.password, pwLine⟩ : SecretIssue).snippet =
        maskSecret (trimList ((splitNl pwLine).getD (ln - 1) [])) :=
  scanContent_snippet_masked "config.ts" pwLine _ (by decide)

/-- Counterexample for C6 as stated: the eight-character password value
`hunter22` is below both masking thresholds, so the issue snippet retains
the full matched secret value verbatim. -/
theorem scanContent_snippet_counterexample :
    scanContent "config.ts" pwLine =
      [{ file := "config.ts", line := 1, type := .password, snippet := pwLine }] ∧
    hasSub "hunter22".data pwLine = true ∧
    maskSecret (trimList pwLine) = pwLine := by
  exact ⟨by decide, by decide, by decide⟩

/-! ### Bundle builder claims -/

lemma sumSizes_append (fs : List FSEntry) (l1 l2 : List String) :
    sumSizes fs (l1 ++ l2) = sumSizes fs l1 + sumSizes fs l2 := by
  simp [sumSizes]

lemma sumTokens_append (fs : List FSEntry) (l1 l2 : List String) :
    sumTokens fs (l1 ++ l2) = sumTokens fs l1 + sumTokens fs l2 := by
  simp [sumTokens]

lemma sumSizes_cons (fs : List FSEntry) (p : String) (l : List String) :
    sumSizes fs (p :: l) = sizeOfPath fs p + sumSizes fs l := by
  simp [sumSizes]

lemma sumTokens_cons (fs : List FSEntry) (p : String) (l : List String) :
    sumTokens fs (p :: l) = tokensOfPath fs p + sumTokens fs l := by
  simp [sumTokens]

lemma length_getBundleFiles (b : AnalysisBundle) :
    (getBundleFiles b).length = getTotalFiles b := by
  simp [getBundleFiles, getTotalFiles]
  omega

/-- `addFile` preserves the builder invariant. -/
lemma addFile_inv (h : String → String) (fs : List FSEntry) (cfg : ContextConfig)
    (st : BuildState) (p : String) (cat : BundleCat)
    (hinv : BuildInv fs cfg st) : BuildInv fs cfg (addFile h fs cfg st p cat) := by
  obtain ⟨h1, h2, h3, h4, h5, h6⟩ := hinv
  unfold addFile
  cases hr : readStat fs p with
  | none => exact ⟨h1, h2, h3, h4, h5, h6⟩
  | some sc =>
    obtain ⟨size, content⟩ := sc
    dsimp only
    simp only [CHARS_PER_TOKEN]
    by_cases c1 : cfg.maxTotalSize < st.currentSize + size
    · rw [if_pos c1]
      exact ⟨h1, h2, h3, h4, h5, h6⟩
    · rw [if_neg c1]
      by_cases c2 : cfg.maxTokens < st.currentTokens + (content.length + 4 - 1) / 4
      · rw [if_pos c2]
        exact ⟨h1, h2, h3, h4, h5, h6⟩
      · rw [if_neg c2]
        by_cases c3 : cfg.maxFiles ≤ getTotalFiles st.bundle
        · rw [if_pos c3]
          exact ⟨h1, h2, h3, h4, h5, h6⟩
        · rw [if_neg c3]
          have hps : sizeOfPath fs p = size := by
            simp [sizeOfPath, hr]
          have hpt : tokensOfPath fs p = (content.length + 4 - 1) / 4 := by
            simp [tokensOfPath, hr, CHARS_PER_TOKEN]
          have hsum : ∀ b : AnalysisBundle,
              sumSizes fs (getBundleFiles (pushCat b cat p)) =
                sumSizes fs (getBundleFiles b) + sizeOfPath fs p := by
            intro b
            cases cat <;>
              simp [getBundleFiles, pushCat, sumSizes_append, sumSizes_cons,
                sumSizes] <;> omega
          have htok : ∀ b : AnalysisBundle,
              sumTokens fs (getBundleFiles (pushCat b cat p)) =
                sumTokens fs (getBundleFiles b) + tokensOfPath fs p := by
            intro b
            cases cat <;>
              simp [getBundleFiles, pushCat, sumTokens_append, sumTokens_cons,
                sumTokens] <;> omega
          have hcnt : ∀ b : AnalysisBundle,
              getTotalFiles (pushCat b cat p) = getTotalFiles b + 1 := by
            intro b
            cases cat <;> simp [getTotalFiles, pushCat] <;> omega
          have hfields : getBundleFiles
              { pushCat st.bundle cat p with
                contentHashes := mapSet st.bundle.contentHashes p (h content),
                totalTokenEstimate := st.currentTokens + (content.length + 4 - 1) / 4 } =
              getBundleFiles (pushCat st.bundle cat p) := by
            simp [getBundleFiles]
          have hfieldc : getTotalFiles
              { pushCat st.bundle cat p with
                contentHashes := mapSet st.bundle.contentHashes p (h content),
                totalTokenEstimate := st.currentTokens + (content.length + 4 - 1) / 4 } =
              getTotalFiles (pushCat st.bundle cat p) := by
            simp [getTotalFiles]
          refine ⟨?_, ?_, rfl, ?_, ?_, ?_⟩
          · dsimp only
            rw [hfields, hsum, hps, ← h1]
          · dsimp only
            rw [hfields, htok, hpt, ← h2]
          · dsimp only
            omega
          · dsimp only
            omega
          · dsimp only
            rw [hfieldc, hcnt]
            omega

lemma foldl_inv {α : Type} (fs : List FSEntry) (cfg : ContextConfig)
    (f : BuildState → α → BuildState)
    (hf : ∀ st x, BuildInv fs cfg st → BuildInv fs cfg (f st x)) :
    ∀ (l : List α) (st : BuildState),
      BuildInv fs cfg st → BuildInv fs cfg (l.foldl f st) := by
  intro l
  induction l with
  | nil => exact fun st hst => hst
  | cons x xs ih => exact fun st hst => ih _ (hf st x hst)

lemma initial_inv (fs : List FSEntry) (cfg : ContextConfig) :
    BuildInv fs cfg initialState := by
  refine ⟨rfl, rfl, rfl, ?_, ?_, ?_⟩ <;>
    simp [initialState, initialBundle, getTotalFiles]

lemma buildFinalState_inv (h : String → String) (fs : List FSEntry)
    (index : RepoIndexM) (cfg : ContextConfig) :
    BuildInv fs cfg (buildFinalState h fs index cfg) := by
  unfold buildFinalState
  apply foldl_inv fs cfg _ (fun st x hst => addFile_inv h fs cfg st x _ hst)
  apply foldl_inv fs cfg _ (fun st x hst => addFile_inv h fs cfg st x _ hst)
  apply foldl_inv fs cfg _ ?hc
  case hc =>
    intro st x hst
    cases index.configs.find? (fun c => endsWithS c x || c == x) with
    | none => exact hst
    | some m => exact addFile_inv h fs cfg st m _ hst
  apply foldl_inv fs cfg _ ?hd
  case hd =>
    intro st x hst
    by_cases hx : docPriority.any (fun p => lowerS x == lowerS p) = true
    · simpa [hx] using hst
    · simp only [Bool.not_eq_true] at hx
      simpa [hx] using addFile_inv h fs cfg st x _ hst
  apply foldl_inv fs cfg _ ?hp
  case hp =>
    intro st x hst
    cases index.docs.find? (fun d => lowerS d == lowerS x) with
    | none => exact hst
    | some m => exact addFile_inv h fs cfg st m _ hst
  apply foldl_inv fs cfg _ (fun st x hst => addFile_inv h fs cfg st x _ hst)
  exact initial_inv fs cfg

/-- C3: every bundle built by `buildAnalysisBundle` respects all three
budget ceilings — accepted byte sizes sum to at most `maxTotalSize`, the
file count across the five buckets is at most `maxFiles`, and
`totalTokenEstimate` (the running sum of `ceil(length/4)` over accepted
files) is at most `maxTokens`; moreover `addFile` either admits a candidate
within all limits or skips it leaving the state unchanged (never an
error). -/
theorem buildAnalysisBundle_budgets (h : String → String) (fs : List FSEntry)
    (index : RepoIndexM) (cfg : ContextConfig) :
    sumSizes fs (getBundleFiles (buildAnalysisBundle h fs index cfg)) ≤ cfg.maxTotalSize ∧
    (getBundleFiles (buildAnalysisBundle h fs index cfg)).length ≤ cfg.maxFiles ∧
    (buildAnalysisBundle h fs index cfg).totalTokenEstimate ≤ cfg.maxTokens ∧
    (buildAnalysisBundle h fs index cfg).totalTokenEstimate =
      sumTokens fs (getBundleFiles (buildAnalysisBundle h fs index cfg)) ∧
    (∀ (st : BuildState) (p : String) (cat : BundleCat),
      addFile h fs cfg st p cat = st ∨
      ∃ size content, readStat fs p = some (size, content) ∧
        st.currentSize + size ≤ cfg.maxTotalSize ∧
        st.currentTokens + (content.length + CHARS_PER_TOKEN - 1) / CHARS_PER_TOKEN ≤
          cfg.maxTokens ∧
        getTotalFiles st.bundle < cfg.maxFiles ∧
        (addFile h fs cfg st p cat).bundle = { pushCat st.bundle cat p with
          contentHashes := mapSet st.bundle.contentHashes p (h content),
          totalTokenEstimate := st.currentTokens +
            (content.length + CHARS_PER_TOKEN - 1) / CHARS_PER_TOKEN }) := by
  obtain ⟨h1, h2, h3, h4, h5, h6⟩ := buildFinalState_inv h fs index cfg
  refine ⟨?_, ?_, ?_, ?_, ?_⟩
  · rw [buildAnalysisBundle, ← h1]
    exact h4
  · rw [buildAnalysisBundle, length_getBundleFiles]
    exact h6
  · rw [buildAnalysisBundle, h3]
    exact h5
  · rw [buildAnalysisBundle, h3, h2]
  · intro st p cat
    unfold addFile
    cases hr : readStat fs p with
    | none => exact Or.inl rfl
    | some sc =>
      obtain ⟨size, content⟩ := sc
      dsimp only
      by_cases c1 : cfg.maxTotalSize < st.currentSize + size
      · rw [if_pos c1]
        exact Or.inl rfl
      · rw [if_neg c1]
        by_cases c2 : cfg.maxTokens <
            st.currentTokens + (content.length + CHARS_PER_TOKEN - 1) / CHARS_PER_TOKEN
        · rw [if_pos c2]
          exact Or.inl rfl
        · rw [if_neg c2]
          by_cases c3 : cfg.maxFiles ≤ getTotalFiles st.bundle
          · rw [if_pos c3]
            exact Or.inl rfl
          · rw [if_neg c3]
            exact Or.inr ⟨size, content, rfl, by omega, by omega, by omega, rfl⟩

/-- `addFile` into a non-samples bucket leaves the samples bucket
unchanged. -/
lemma addFile_samples_other (h : String → String) (fs : List FSEntry)
    (cfg : ContextConfig) (st : BuildState) (p : String) (cat : BundleCat)
    (hcat : cat ≠ BundleCat.samples) :
    (addFile h fs cfg st p cat).bundle.samples = st.bundle.samples := by
  unfold addFile
  cases hr : readStat fs p with
  | none => rfl
  | some sc =>
    obtain ⟨size, content⟩ := sc
    dsimp only
    by_cases c1 : cfg.maxTotalSize < st.currentSize + size
    · rw [if_pos c1]
    · rw [if_neg c1]
      by_cases c2 : cfg.maxTokens <
          st.currentTokens + (content.length + CHARS_PER_TOKEN - 1) / CHARS_PER_TOKEN
      · rw [if_pos c2]
      · rw [if_neg c2]
        by_cases c3 : cfg.maxFiles ≤ getTotalFiles st.bundle
        · rw [if_pos c3]
        · rw [if_neg c3]
          cases cat with
          | samples => exact absurd rfl hcat
          | manifests => simp [pushCat]
          | entrypoints => simp [pushCat]
          | configs => simp [pushCat]
          | docs => simp [pushCat]

/-- `addFile` into the samples bucket either skips or appends the path. -/
lemma addFile_samples_self (h : String → String) (fs : List FSEntry)
    (cfg : ContextConfig) (st : BuildState) (p : String) :
    (addFile h fs cfg st p .samples).bundle.samples = st.bundle.samples ∨
    (addFile h fs cfg st p .samples).bundle.samples = st.bundle.samples ++ [p] := by
  unfold addFile
  cases hr : readStat fs p with
  | none => exact Or.inl rfl
  | some sc =>
    obtain ⟨size, content⟩ := sc
    dsimp only
    by_cases c1 : cfg.maxTotalSize < st.currentSize + size
    · rw [if_pos c1]
      exact Or.inl rfl
    · rw [if_neg c1]
      by_cases c2 : cfg.maxTokens <
          st.currentTokens + (content.length + CHARS_PER_TOKEN - 1) / CHARS_PER_TOKEN
      · rw [if_pos c2]
        exact Or.inl rfl
      · rw [if_neg c2]
        by_cases c3 : cfg.maxFiles ≤ getTotalFiles st.bundle
        · rw [if_pos c3]
          exact Or.inl rfl
        · rw [if_neg c3]
          refine Or.inr ?_
          simp [pushCat]

lemma foldl_samples_const {α : Type} (f : BuildState → α → BuildState)
    (hf : ∀ st x, (f st x).bundle.samples = st.bundle.samples) :
    ∀ (l : List α) (st : BuildState),
      (l.foldl f st).bundle.samples = st.bundle.samples := by
  intro l
  induction l with
  | nil => exact fun st => rfl
  | cons x xs ih => exact fun st => (ih (f st x)).trans (hf st x)

/-- Folding sample additions produces a sublist of the starting samples
followed by the added paths. -/
lemma foldl_addSamples_sublist (h : String → String) (fs : List FSEntry)
    (cfg : ContextConfig) :
    ∀ (l : List String) (st : BuildState),
      ((l.foldl (fun st p => addFile h fs cfg st p .samples) st).bundle.samples).Sublist
        (st.bundle.samples ++ l) := by
  intro l
  induction l with
  | nil => intro st; simp
  | cons p l' ih =>
    intro st
    have hstep := ih (addFile h fs cfg st p .samples)
    rcases addFile_samples_self h fs cfg st p with hs | hs
    · refine (hstep.trans ?_)
      rw [hs]
      exact List.Sublist.append_left (List.sublist_cons_self p l') _
    · refine (hstep.trans ?_)
      rw [hs, List.append_assoc]
      simp

lemma pushMatches_nodup (maxCount : Nat) :
    ∀ (ms acc : List String), acc.Nodup → (pushMatches maxCount acc ms).Nodup := by
  intro ms
  induction ms with
  | nil => exact fun acc hacc => hacc
  | cons m ms ih =>
    intro acc hacc
    unfold pushMatches
    by_cases hlen : maxCount ≤ acc.length
    · rw [if_pos hlen]
      exact hacc
    · rw [if_neg hlen]
      by_cases hmem : acc.contains m = true
      · rw [if_pos hmem]
        exact ih acc hacc
      · rw [if_neg hmem]
        refine ih _ ?_
        have hm : m ∉ acc := by
          intro hin
          exact hmem (List.elem_iff.mpr hin)
        refine List.Nodup.append hacc (by simp) ?_
        intro x hx hx2
        rw [List.mem_singleton] at hx2
        exact hm (hx2 ▸ hx)

lemma selGo_nodup (fs : List FSEntry) (maxCount : Nat) :
    ∀ (pats : List ArchPat) (acc : List String),
      acc.Nodup → (selGo fs maxCount pats acc).Nodup := by
  intro pats
  induction pats with
  | nil => exact fun acc hacc => hacc
  | cons ap rest ih =>
    intro acc hacc
    unfold selGo
    by_cases hlen : maxCount ≤ acc.length
    · rw [if_pos hlen]
      exact hacc
    · rw [if_neg hlen]
      exact ih _ (pushMatches_nodup maxCount _ acc hacc)

lemma selectRepresentativeSamples_nodup (fs : List FSEntry) (maxCount : Nat) :
    (selectRepresentativeSamples fs maxCount).Nodup := by
  unfold selectRepresentativeSamples
  by_cases h0 : maxCount = 0
  · rw [if_pos h0]
    exact List.nodup_nil
  · rw [if_neg h0]
    exact selGo_nodup fs maxCount architecturalPatterns [] List.nodup_nil

/-- Before the sample phase, the samples bucket is empty. -/
lemma build_pre_samples (h : String → String) (fs : List FSEntry)
    (index : RepoIndexM) (cfg : ContextConfig) :
    (buildPhase5 h fs cfg index (buildPhase4 h fs cfg index (buildPhase3 h fs cfg index
      (buildPhase2 h fs cfg index
        (buildPhase1 h fs cfg index initialState))))).bundle.samples = [] := by
  have h1 : ∀ st : BuildState,
      (buildPhase1 h fs cfg index st).bundle.samples = st.bundle.samples :=
    fun st => foldl_samples_const _
      (fun st p => addFile_samples_other h fs cfg st p _ (by decide)) _ st
  have h2 : ∀ st : BuildState,
      (buildPhase2 h fs cfg index st).bundle.samples = st.bundle.samples := by
    intro st
    refine foldl_samples_const _ ?_ _ st
    intro st x
    cases hfind : index.docs.find? (fun d => lowerS d == lowerS x) with
    | none => rfl
    | some m => exact addFile_samples_other h fs cfg st m _ (by decide)
  have h3 : ∀ st : BuildState,
      (buildPhase3 h fs cfg index st).bundle.samples = st.bundle.samples := by
    intro st
    refine foldl_samples_const _ ?_ _ st
    intro st x
    by_cases hx : docPriority.any (fun p => lowerS x == lowerS p) = true
    · simp only [hx, if_true]
    · simp only [Bool.not_eq_true] at hx
      simp only [hx, Bool.false_eq_true, if_false]
      exact addFile_samples_other h fs cfg st x _ (by decide)
  have h4 : ∀ st : BuildState,
      (buildPhase4 h fs cfg index st).bundle.samples = st.bundle.samples := by
    intro st
    refine foldl_samples_const _ ?_ _ st
    intro st x
    cases hfind : index.configs.find? (fun c => endsWithS c x || c == x) with
    | none => rfl
    | some m => exact addFile_samples_other h fs cfg st m _ (by decide)
  have h5 : ∀ st : BuildState,
      (buildPhase5 h fs cfg index st).bundle.samples = st.bundle.samples :=
    fun st => foldl_samples_const _
      (fun st p => addFile_samples_other h fs cfg st p _ (by decide)) _ st
  rw [h5, h4, h3, h2, h1]
  rfl

/-- C4 (amended): within the samples bucket, every path occurs at most once
(the `samples.includes` check deduplicates sample selection); a path may
still land in two different buckets, as the counterexample shows. -/
theorem buildAnalysisBundle_samples_nodup (h : String → String) (fs : List FSEntry)
    (index : RepoIndexM) (cfg : ContextConfig) :
    (buildAnalysisBundle h fs index cfg).samples.Nodup := by
  unfold buildAnalysisBundle buildFinalState buildPhase6
  have hsub := foldl_addSamples_sublist h fs cfg
    (selectRepresentativeSamples fs (cfg.maxFiles - getTotalFiles
      (buildPhase5 h fs cfg index (buildPhase4 h fs cfg index (buildPhase3 h fs cfg index
        (buildPhase2 h fs cfg index
          (buildPhase1 h fs cfg index initialState))))).bundle))
    (buildPhase5 h fs cfg index (buildPhase4 h fs cfg index (buildPhase3 h fs cfg index
      (buildPhase2 h fs cfg index
        (buildPhase1 h fs cfg index initialState)))))
  rw [build_pre_samples h fs index cfg] at hsub
  simp only [List.nil_append] at hsub
  exact hsub.nodup (selectRepresentativeSamples_nodup fs _)

/-- Counterexample for C4 as stated: `lib/index.ts` is both a conventional
entry point (`lib/index.*` in the indexer) and a match of the architectural
sample glob over `lib/`, and `buildAnalysisBundle` admits it into both the
entrypoints bucket and the samples bucket of the same bundle. -/
theorem bundle_bucket_overlap_counterexample :
    "lib/index.ts" ∈ (buildAnalysisBundle (fun s => s) libFS libIndex DEFAULT_CONFIG).entrypoints ∧
    "lib/index.ts" ∈ (buildAnalysisBundle (fun s => s) libFS libIndex DEFAULT_CONFIG).samples := by
  exact ⟨by decide, by decide⟩

/-! ### Bundle hash claims -/

lemma lexLe_total : ∀ a b : List Char, lexLe a b = true ∨ lexLe b a = true := by
  intro a
  induction a with
  | nil => intro b; exact Or.inl rfl
  | cons x xs ih =>
    intro b
    cases b with
    | nil => exact Or.inr rfl
    | cons y ys =>
      rcases lt_trichotomy x y with hlt | heq | hgt
      · exact Or.inl (by simp [lexLe, hlt])
      · subst heq
        rcases ih ys with hl | hr
        · exact Or.inl (by simp [lexLe, lt_irrefl, hl])
        · exact Or.inr (by simp [lexLe, lt_irrefl, hr])
      · exact Or.inr (by simp [lexLe, hgt])

lemma lexLe_antisymm : ∀ a b : List Char,
    lexLe a b = true → lexLe b a = true → a = b := by
  intro a
  induction a with
  | nil =>
    intro b _ h2
    cases b with
    | nil => rfl
    | cons y ys => simp [lexLe] at h2
  | cons x xs ih =>
    intro b h1 h2
    cases b with
    | nil => simp [lexLe] at h1
    | cons y ys =>
      rcases lt_trichotomy x y with hlt | heq | hgt
      · rw [show lexLe (y :: ys) (x :: xs) =
          (if y < x then true else if y = x then lexLe ys xs else false) from rfl] at h2
        rw [if_neg (asymm hlt), if_neg (ne_of_gt hlt)] at h2
        cases h2
      · subst heq
        rw [show lexLe (x :: xs) (x :: ys) =
          (if x < x then true else if x = x then lexLe xs ys else false) from rfl] at h1
        rw [show lexLe (x :: ys) (x :: xs) =
          (if x < x then true else if x = x then lexLe ys xs else false) from rfl] at h2
        rw [if_neg (lt_irrefl x), if_pos rfl] at h1 h2
        rw [ih ys h1 h2]
      · rw [show lexLe (x :: xs) (y :: ys) =
          (if x < y then true else if x = y then lexLe xs ys else false) from rfl] at h1
        rw [if_neg (asymm hgt), if_neg (ne_of_gt hgt)] at h1
        cases h1

lemma lexLe_trans : ∀ a b c : List Char,
    lexLe a b = true → lexLe b c = true → lexLe a c = true := by
  intro a
  induction a with
  | nil => intro b c _ _; rfl
  | cons x xs ih =>
    intro b c h1 h2
    cases b with
    | nil => simp [lexLe] at h1
    | cons y ys =>
      cases c with
      | nil => simp [lexLe] at h2
      | cons z zs =>
        rw [show lexLe (x :: xs) (y :: ys) =
          (if x < y then true else if x = y then lexLe xs ys else false) from rfl] at h1
        rw [show lexLe (y :: ys) (z :: zs) =
          (if y < z then true else if y = z then lexLe ys zs else false) from rfl] at h2
        rw [show lexLe (x :: xs) (z :: zs) =
          (if x < z then true else if x = z then lexLe xs zs else false) from rfl]
        by_cases hxy : x < y
        · rw [if_pos hxy] at h1
          by_cases hyz : y < z
          · rw [if_pos (lt_trans hxy hyz)]
          · by_cases hyz' : y = z
            · subst hyz'
              rw [if_pos hxy]
            · rw [if_neg hyz, if_neg hyz'] at h2
              cases h2
        · rw [if_neg hxy] at h1
          by_cases hxy' : x = y
          · subst hxy'
            rw [if_pos rfl] at h1
            by_cases hxz : x < z
            · rw [if_pos hxz]
            · by_cases hxz' : x = z
              · subst hxz'
                rw [if_neg hxz, if_pos rfl] at h2 ⊢
                exact ih ys zs h1 h2
              · rw [if_neg hxz, if_neg hxz'] at h2
                cases h2
          · rw [if_neg hxy'] at h1
            cases h1

lemma strLe_total (a b : String) : strLe a b = true ∨ strLe b a = true :=
  lexLe_total a.data b.data

lemma strLe_antisymm {a b : String} (h1 : strLe a b = true)
    (h2 : strLe b a = true) : a = b := by
  cases a with
  | mk d1 =>
    cases b with
    | mk d2 => exact congrArg String.mk (lexLe_antisymm d1 d2 h1 h2)

lemma strLe_trans {a b c : String} (h1 : strLe a b = true)
    (h2 : strLe b c = true) : strLe a c = true :=
  lexLe_trans a.data b.data c.data h1 h2

instance : IsAntisymm String strLeP :=
  ⟨fun _ _ h1 h2 => strLe_antisymm h1 h2⟩

lemma insertStr_perm (x : String) : ∀ l, (insertStr x l).Perm (x :: l) := by
  intro l
  induction l with
  | nil => exact List.Perm.refl _
  | cons y ys ih =>
    unfold insertStr
    by_cases hxy : strLe x y = true
    · rw [if_pos hxy]
    · rw [if_neg hxy]
      exact (ih.cons y).trans (List.Perm.swap x y ys)

lemma sortStrings_perm : ∀ l : List String, (sortStrings l).Perm l := by
  intro l
  induction l with
  | nil => exact List.Perm.refl _
  | cons x xs ih =>
    exact (insertStr_perm x (sortStrings xs)).trans (ih.cons x)

lemma insertStr_sorted (x : String) :
    ∀ l, List.Pairwise strLeP l → List.Pairwise strLeP (insertStr x l) := by
  intro l
  induction l with
  | nil => exact fun _ => List.pairwise_singleton _ _
  | cons y ys ih =>
    intro hp
    obtain ⟨hy, hys⟩ := List.pairwise_cons.mp hp
    unfold insertStr
    by_cases hxy : strLe x y = true
    · rw [if_pos hxy]
      refine List.pairwise_cons.mpr ⟨?_, hp⟩
      intro z hz
      rcases List.mem_cons.mp hz with rfl | hz'
      · exact hxy
      · exact strLe_trans hxy (hy z hz')
    · rw [if_neg hxy]
      refine List.pairwise_cons.mpr ⟨?_, ih hys⟩
      intro z hz
      have hz' : z ∈ x :: ys := (insertStr_perm x ys).mem_iff.mp hz
      rcases List.mem_cons.mp hz' with rfl | hz''
      · rcases strLe_total z y with hl | hr
        · exact absurd hl hxy
        · exact hr
      · exact hy z hz''

lemma sortStrings_sorted : ∀ l : List String, List.Pairwise strLeP (sortStrings l) := by
  intro l
  induction l with
  | nil => exact List.Pairwise.nil
  | cons x xs ih => exact insertStr_sorted x (sortStrings xs) ih

/-- The sort result depends only on the multiset of elements. -/
lemma sortStrings_eq_of_perm {l₁ l₂ : List String} (hp : l₁.Perm l₂) :
    sortStrings l₁ = sortStrings l₂ :=
  List.eq_of_perm_of_sorted
    ((sortStrings_perm l₁).trans (hp.trans (sortStrings_perm l₂).symm))
    (sortStrings_sorted l₁) (sortStrings_sorted l₂)

/-- Splitting a colon-joined pair of colon-free heads. -/
lemma splitColonEq : ∀ {s t a b : List Char}, ':' ∉ s → ':' ∉ t →
    s ++ ':' :: a = t ++ ':' :: b → s = t ∧ a = b := by
  intro s
  induction s with
  | nil =>
    intro t a b _ ht heq
    cases t with
    | nil => simpa using heq
    | cons u t' =>
      simp only [List.nil_append, List.cons_append, List.cons.injEq] at heq
      exact absurd (heq.1 ▸ List.mem_cons_self u t') ht
  | cons c s' ih =>
    intro t a b hs ht heq
    cases t with
    | nil =>
      simp only [List.nil_append, List.cons_append, List.cons.injEq] at heq
      exact absurd (heq.1 ▸ List.mem_cons_self c s') hs
    | cons u t' =>
      simp only [List.cons_append, List.cons.injEq] at heq
      obtain ⟨rfl, heq'⟩ := heq
      have hs' : ':' ∉ s' := fun hx => hs (List.mem_cons_of_mem _ hx)
      have ht' : ':' ∉ t' := fun hx => ht (List.mem_cons_of_mem _ hx)
      obtain ⟨rfl, rfl⟩ := ih hs' ht' heq'
      exact ⟨rfl, rfl⟩

/-- `join(':')` is injective on equal-length lists of colon-free strings. -/
lemma joinColon_inj : ∀ (L1 L2 : List (List Char)), L1.length = L2.length →
    (∀ l ∈ L1, ':' ∉ l) → (∀ l ∈ L2, ':' ∉ l) →
    joinColonCh L1 = joinColonCh L2 → L1 = L2 := by
  intro L1
  induction L1 with
  | nil =>
    intro L2 hlen _ _ _
    cases L2 with
    | nil => rfl
    | cons t r => simp at hlen
  | cons s r1 ih =>
    intro L2 hlen hc1 hc2 hj
    cases L2 with
    | nil => simp at hlen
    | cons t r2 =>
      cases r1 with
      | nil =>
        cases r2 with
        | nil =>
          simpa [joinColonCh] using hj
        | cons t2 r2' => simp at hlen
      | cons s2 r1' =>
        cases r2 with
        | nil => simp at hlen
        | cons t2 r2' =>
          have hj' : s ++ ':' :: joinColonCh (s2 :: r1') =
              t ++ ':' :: joinColonCh (t2 :: r2') := hj
          obtain ⟨rfl, hj''⟩ := splitColonEq (hc1 s (by simp))
            (hc2 t (by simp)) hj'
          have hrest := ih (t2 :: r2') (by simpa using hlen)
            (fun l hl => hc1 l (List.mem_cons_of_mem _ hl))
            (fun l hl => hc2 l (List.mem_cons_of_mem _ hl)) hj''
          rw [hrest]

lemma lookupA_any {m : List (String × String)} {p v : String}
    (hlk : lookupA m p = some v) : m.any (fun kv => kv.1 == p) = true := by
  induction m with
  | nil => cases hlk
  | cons kv t ih =>
    obtain ⟨k, u⟩ := kv
    by_cases hk : k = p
    · simp [hk]
    · rw [show lookupA ((k, u) :: t) p = lookupA t p from by
        simp [lookupA, hk]] at hlk
      simp [ih hlk]

lemma mapSet_nokey {t : List (String × String)} {p w : String}
    (hnk : ∀ kv ∈ t, kv.1 ≠ p) :
    t.map (fun kv => if kv.1 == p then (p, w) else kv) = t := by
  induction t with
  | nil => rfl
  | cons kv t' ih =>
    have hh : (kv.1 == p) = false := by
      simp [hnk kv (List.mem_cons_self kv t')]
    simp only [List.map_cons, hh, Bool.false_eq_true, if_false]
    rw [ih (fun x hx => hnk x (List.mem_cons_of_mem _ hx))]

/-- Replacing the value of an existing key (with key-distinct entries)
changes exactly one position of the value list. -/
lemma mapSet_values_decomp :
    ∀ {m : List (String × String)} {p v : String},
      (m.map Prod.fst).Nodup → lookupA m p = some v → ∀ w,
      ∃ A B, m.map Prod.snd = A ++ v :: B ∧
        (mapSet m p w).map Prod.snd = A ++ w :: B := by
  intro m
  induction m with
  | nil => intro p v _ hlk; cases hlk
  | cons kv t ih =>
    obtain ⟨k, u⟩ := kv
    intro p v hnd hlk w
    by_cases hk : k = p
    · have hv : v = u := by
        rw [show lookupA ((k, u) :: t) p = some u from by simp [lookupA, hk]] at hlk
        cases hlk
        rfl
      rw [hv]
      have hnk : ∀ kv ∈ t, kv.1 ≠ p := by
        intro x hx hxk
        have hmem : p ∈ t.map Prod.fst := List.mem_map.mpr ⟨x, hx, hxk⟩
        refine (List.nodup_cons.mp hnd).1 ?_
        rw [hk]
        exact hmem
      have hset : mapSet ((k, u) :: t) p w = (p, w) :: t := by
        unfold mapSet
        rw [if_pos (by simp [hk])]
        simp only [List.map_cons]
        rw [if_pos (by simp [hk]), mapSet_nokey hnk]
      refine ⟨[], t.map Prod.snd, by simp, ?_⟩
      rw [hset]
      simp
    · have hlk' : lookupA t p = some v := by
        rw [show lookupA ((k, u) :: t) p = lookupA t p from by
          simp [lookupA, hk]] at hlk
        exact hlk
      have hnd' : (t.map Prod.fst).Nodup := (List.nodup_cons.mp hnd).2
      obtain ⟨A, B, hv1, hv2⟩ := ih hnd' hlk' w
      have hany : t.any (fun kv => kv.1 == p) = true := lookupA_any hlk'
      have hset : mapSet ((k, u) :: t) p w = (k, u) :: mapSet t p w := by
        unfold mapSet
        rw [if_pos (by simp [hany]), if_pos hany]
        simp only [List.map_cons]
        rw [if_neg (by simp [hk])]
      refine ⟨u :: A, B, by simp [hv1], ?_⟩
      rw [hset]
      simp [hv2]

lemma append_change_not_perm {A B : List String} {v w : String} (hvw : v ≠ w) :
    ¬ (A ++ v :: B).Perm (A ++ w :: B) := by
  intro hp
  have hc := hp.count_eq v
  have hwv : (w == v) = false := by
    simp [Ne.symm hvw]
  simp [List.count_append, List.count_cons, hwv] at hc

/-- C9: `getBundleHash` sorts the recorded content hashes, joins them with
a separator, and hashes the result; it is therefore invariant under any
permutation of the recorded hash values (the order files were added), while
changing the recorded content of any included file changes the hash,
provided the hash function is injective (collision-free) and produces
separator-free digests, as a hex digest is. -/
theorem getBundleHash_props (h : String → String) :
    (∀ m₁ m₂ : List (String × String),
      (m₁.map Prod.snd).Perm (m₂.map Prod.snd) →
      getBundleHash h (mkBundleWith m₁) = getBundleHash h (mkBundleWith m₂)) ∧
    (∀ (m : List (String × String)) (p c c' : String),
      (∀ a b, h a = h b → a = b) →
      (m.map Prod.fst).Nodup →
      lookupA m p = some (h c) →
      c ≠ c' →
      (∀ v ∈ m.map Prod.snd, ':' ∉ v.data) →
      ':' ∉ (h c').data →
      getBundleHash h (mkBundleWith m) ≠
        getBundleHash h (mkBundleWith (mapSet m p (h c')))) := by
  constructor
  · intro m₁ m₂ hperm
    unfold getBundleHash bundleKey mkBundleWith
    rw [sortStrings_eq_of_perm hperm]
  · intro m p c c' hinj hnd hlk hne hcf hcf'
    obtain ⟨A, B, hv1, hv2⟩ := mapSet_values_decomp hnd hlk (h c')
    intro heq
    have hkey : bundleKey (mkBundleWith m) =
        bundleKey (mkBundleWith (mapSet m p (h c'))) := hinj _ _ heq
    unfold bundleKey mkBundleWith at hkey
    have hjoin : joinColonCh ((sortStrings (m.map Prod.snd)).map String.data) =
        joinColonCh ((sortStrings ((mapSet m p (h c')).map Prod.snd)).map String.data) := by
      have := congrArg String.data hkey
      simpa using this
    have hlen : ((sortStrings (m.map Prod.snd)).map String.data).length =
        ((sortStrings ((mapSet m p (h c')).map Prod.snd)).map String.data).length := by
      rw [List.length_map, List.length_map, (sortStrings_perm _).length_eq,
        (sortStrings_perm _).length_eq, hv1, hv2]
      simp
    have hcL1 : ∀ l ∈ (sortStrings (m.map Prod.snd)).map String.data, ':' ∉ l := by
      intro l hl
      obtain ⟨s, hs, rfl⟩ := List.mem_map.mp hl
      exact hcf s ((sortStrings_perm _).mem_iff.mp hs)
    have hcL2 : ∀ l ∈ (sortStrings ((mapSet m p (h c')).map Prod.snd)).map String.data,
        ':' ∉ l := by
      intro l hl
      obtain ⟨s, hs, rfl⟩ := List.mem_map.mp hl
      have hs' : s ∈ (mapSet m p (h c')).map Prod.snd :=
        (sortStrings_perm _).mem_iff.mp hs
      rw [hv2] at hs'
      rcases List.mem_append.mp hs' with hsA | hsB
      · refine hcf s ?_
        rw [hv1]
        exact List.mem_append.mpr (Or.inl hsA)
      · rcases List.mem_cons.mp hsB with rfl | hsB'
        · exact hcf'
        · refine hcf s ?_
          rw [hv1]
          exact List.mem_append.mpr (Or.inr (List.mem_cons_of_mem _ hsB'))
    have hmaps := joinColon_inj _ _ hlen hcL1 hcL2 hjoin
    have hdata_inj : Function.Injective String.data := by
      intro a b hab
      cases a with
      | mk d1 =>
        cases b with
        | mk d2 => exact congrArg String.mk hab
    have hsorts : sortStrings (m.map Prod.snd) =
        sortStrings ((mapSet m p (h c')).map Prod.snd) :=
      List.map_injective_iff.mpr hdata_inj hmaps
    have hperm : (m.map Prod.snd).Perm ((mapSet m p (h c')).map Prod.snd) :=
      (sortStrings_perm _).symm.trans (hsorts ▸ sortStrings_perm _)
    rw [hv1, hv2] at hperm
    exact append_change_not_perm (fun hcc => hne (hinj _ _ hcc)) hperm

/-- Witness for C9 at concrete hash maps and the identity as (injective)
hash function. -/
theorem getBundleHash_props_witness :
    getBundleHash (fun s => s) (mkBundleWith [("a", "h1"), ("b", "h2")]) =
      getBundleHash (fun s => s) (mkBundleWith [("b", "h2"), ("a", "h1")]) ∧
    getBundleHash (fun s => s) (mkBundleWith [("a", "x")]) ≠
      getBundleHash (fun s => s) (mkBundleWith (mapSet [("a", "x")] "a" "y")) := by
  constructor
  · exact (getBundleHash_props (fun s => s)).1 _ _ (by decide)
  · exact (getBundleHash_props (fun s => s)).2 [("a", "x")] "a" "x" "y"
      (fun a b hab => hab) (by decide) (by decide) (by decide)
      (by decide) (by decide)
